import Mathlib

/-!
Verification of the persistence and versioning core of the opencode-pro
repository: the snapshot/checkpoint engine (packages/opencode/src/snapshot),
the worktree manager (packages/opencode/src/worktree), the SQLite session
store (packages/opencode/src/storage/sqlite.ts) and the client-side sync
merger (packages/app/src/context/sync.tsx).

Each definition is a shallow embedding of the corresponding TypeScript
function.  External effects (git subprocesses, the filesystem) are modelled
by explicit oracle parameters; SQLite tables are modelled as Lean lists with
the SQL clauses translated clause by clause.  Paths are modelled with POSIX
separators (the code's process.platform is not win32, so normalizeCase is
the identity).
-/

/-! ### Path model (node:path, POSIX flavour) -/

/-- Split of a character list at every character satisfying a predicate,
keeping empty pieces, as JavaScript split does. -/
def splitOnPred (p : Char → Bool) : List Char → List (List Char)
  | [] => [[]]
  | x :: xs =>
    let r := splitOnPred p xs
    if p x then [] :: r
    else
      match r with
      | [] => [[x]]
      | h :: t => (x :: h) :: t

/-- Segment resolution of node's path.posix.normalize: drops empty and
dot segments and resolves dot-dot segments against the accumulator, keeping
leading dot-dot segments of relative paths. -/
def normSegs (abs : Bool) : List String → List String → List String
  | acc, [] => acc.reverse
  | acc, seg :: rest =>
    if seg = "" ∨ seg = "." then normSegs abs acc rest
    else if seg = ".." then
      match acc with
      | top :: tail => if top = ".." then normSegs abs (".." :: top :: tail) rest else normSegs abs tail rest
      | [] => if abs then normSegs abs [] rest else normSegs abs [".."] rest
    else normSegs abs (seg :: acc) rest

/-- Join of path segments with the separator. -/
def joinSegs : List String → String
  | [] => ""
  | [s] => s
  | s :: rest => s ++ "/" ++ joinSegs rest

/-- Embedding of node's path.posix.normalize. -/
def pathNormalize (p : String) : String :=
  if p = "" then "."
  else
    let abs := p.data.head? == some '/'
    let trail := (p.data.getLast? == some '/') && decide (1 < p.data.length)
    let segs := normSegs abs [] ((splitOnPred (fun c => c == '/') p.data).map String.mk)
    let core := joinSegs segs
    if abs then
      if core = "" then "/" else "/" ++ core ++ (if trail then "/" else "")
    else
      if core = "" then (if trail then "./" else ".") else core ++ (if trail then "/" else "")

/-- Embedding of node's path.posix.join for two components: concatenate with a
separator and normalize. -/
def pathJoin (a b : String) : String :=
  if a = "" && b = "" then "."
  else if a = "" then pathNormalize b
  else if b = "" then pathNormalize a
  else pathNormalize (a ++ "/" ++ b)

/-- Test for one string being an initial segment of another. -/
def strStartsWith (s pre : String) : Bool :=
  pre.data.isPrefixOf s.data

/-! ### Worktree.remove (packages/opencode/src/worktree/index.ts) -/

/-- Embedding of Worktree.managedRoot: path.normalize(path.join(Global.Path.data, "worktree")).
The global data directory is passed explicitly. -/
def managedRoot (data : String) : String :=
  pathNormalize (pathJoin data "worktree")

/-- Embedding of Worktree.isManaged: the normalized directory must start with the
managed root followed by the path separator.  normalizeCase is the identity off
Windows, so it is omitted. -/
def isManaged (data directory : String) : Bool :=
  let normalized := pathNormalize directory
  let root := managedRoot data
  strStartsWith normalized (root ++ "/")

/-- Path segments of a directory relative to the managed root, as computed inside
Worktree.remove: slice off the root, strip leading separators, split on both
separators and drop empty segments. -/
def managedParts (data dir : String) : List String :=
  let normalized := pathNormalize dir
  let root := managedRoot data
  let rest := (normalized.data.drop root.data.length).dropWhile (fun c => c == '/' || c == '\\')
  ((splitOnPred (fun c => c == '/' || c == '\\') rest).map String.mk).filter (fun s => s ≠ "")

/-- Observable steps performed by Worktree.remove, in order.  Destructive steps
are the git worktree removal, the recursive filesystem delete and the ref prune. -/
inductive RemovalAction where
  | statDir : RemovalAction
  | gitRevParse : RemovalAction
  | disposeState (target : String) : RemovalAction
  | gitWorktreeRemove (attempt : Nat) : RemovalAction
  | sleepRetry (attempt : Nat) : RemovalAction
  | fsRm : RemovalAction
  | gitPrune : RemovalAction
  | removeSandbox (projectID : String) : RemovalAction
deriving DecidableEq, Repr

/-- Destructive filesystem or git operations among the removal actions. -/
def destructiveAction : RemovalAction → Bool
  | RemovalAction.gitWorktreeRemove _ => true
  | RemovalAction.fsRm => true
  | RemovalAction.gitPrune => true
  | _ => false

/-- Typed errors thrown by Worktree.remove. -/
inductive WorktreeError where
  | deleteFailed : WorktreeError
  | notFound : WorktreeError
deriving DecidableEq, Repr

/-- Oracles for the external effects consulted by Worktree.remove: whether the
target stats as a directory, the git common dir reported by rev-parse (none
models a failing subprocess), the exit status of each git worktree remove
attempt, and the outcomes of rm -rf and worktree prune. -/
structure RemoveEnv where
  statIsDir : Bool
  gitCommonDir : Option String
  removeOk : Nat → Bool
  rmOk : Bool
  pruneOk : Bool

/-- Retry loop of Worktree.remove: up to five git worktree remove attempts with
backoff, then manual cleanup (rm -rf plus git worktree prune). -/
def removeAttempts (env : RemoveEnv) (projectID : String) :
    Nat → Nat → List RemovalAction → Except WorktreeError Bool × List RemovalAction
  | remaining, attempt, trace =>
    let trace1 := trace ++ [RemovalAction.gitWorktreeRemove attempt]
    if env.removeOk attempt then
      (Except.ok true, trace1 ++ [RemovalAction.removeSandbox projectID])
    else
      match remaining with
      | Nat.succ r =>
        removeAttempts env projectID r (attempt + 1) (trace1 ++ [RemovalAction.sleepRetry attempt])
      | 0 =>
        let trace2 := trace1 ++ [RemovalAction.fsRm]
        if !env.rmOk then (Except.ok false, trace2)
        else
          (Except.ok true,
            trace2 ++ [RemovalAction.gitPrune, RemovalAction.removeSandbox projectID])

/-- Embedding of Worktree.remove: normalize, reject unmanaged paths, stat, check
the project/name segments, resolve the git common dir, dispose instance state,
then retry git worktree remove and fall back to manual cleanup. -/
def removeRun (data dir : String) (env : RemoveEnv) :
    Except WorktreeError Bool × List RemovalAction :=
  let normalized := pathNormalize dir
  if !isManaged data normalized then (Except.error WorktreeError.deleteFailed, [])
  else
    let trace0 := [RemovalAction.statDir]
    if !env.statIsDir then (Except.error WorktreeError.notFound, trace0)
    else
      let parts := managedParts data dir
      if parts.length < 2 then (Except.error WorktreeError.deleteFailed, trace0)
      else
        let projectID := (parts.head?).getD ""
        let trace1 := trace0 ++ [RemovalAction.gitRevParse]
        match env.gitCommonDir with
        | none => (Except.error WorktreeError.deleteFailed, trace1)
        | some _ =>
          let targets := if dir = normalized then [dir] else [dir, normalized]
          let trace2 := trace1 ++ targets.map RemovalAction.disposeState
          removeAttempts env projectID 4 0 trace2

/-! ### Snapshot diff and patch (packages/opencode/src/snapshot/index.ts) -/

/-- Result of a git subprocess: exit code and standard output. -/
def RunEnv : Type := List String → Nat × String

/-- Embedding of Snapshot.gitdir: path.join(Global.Path.data, "snapshot", project.id). -/
def gitdirOf (data projectID : String) : String :=
  pathJoin (pathJoin data "snapshot") projectID

/-- JavaScript String.prototype.trim on the whitespace characters git output
can carry, modelled over character lists. -/
def jsTrim (s : String) : String :=
  String.mk (((s.data.dropWhile Char.isWhitespace).reverse.dropWhile Char.isWhitespace).reverse)

/-- Split of a character list at every occurrence of a separator character. -/
def splitOnChar (c : Char) : List Char → List (List Char)
  | [] => [[]]
  | x :: xs =>
    let r := splitOnChar c xs
    if x == c then [] :: r
    else
      match r with
      | [] => [[x]]
      | h :: t => (x :: h) :: t

/-- JavaScript split on a newline: the list of lines, keeping empty pieces. -/
def splitNl (s : String) : List String :=
  (splitOnChar '\n' s.data).map String.mk

/-- Argument list of the git invocation inside Snapshot.diff. -/
def diffArgs (gd wt hash : String) : List String :=
  ["git", "-c", "core.autocrlf=false", "--git-dir", gd, "--work-tree", wt,
    "diff", "--no-ext-diff", hash, "--", "."]

/-- Embedding of Snapshot.diff: run git diff against the checkpoint; on a
non-zero exit return the empty string, otherwise the trimmed output. -/
def diffRun (env : RunEnv) (gd wt hash : String) : String :=
  let r := env (diffArgs gd wt hash)
  if r.1 ≠ 0 then "" else jsTrim r.2

/-- Git flags that make a diff ignore whitespace changes. -/
def wsIgnoreFlags : List String :=
  ["-w", "--ignore-all-space", "-b", "--ignore-space-change",
    "--ignore-blank-lines", "--ignore-space-at-eol", "--ignore-cr-at-eol"]

/-- Subprocess model of real git on a repository whose worktree differs from the
checkpointed tree only in whitespace (the checkpoint holds the line a-space-b,
the worktree a-space-space-b): a diff invoked with a whitespace-ignoring flag
prints nothing, a diff invoked without one prints the hunk. -/
def gitWhitespaceModel : RunEnv := fun args =>
  if args.any (fun a => wsIgnoreFlags.contains a) then (0, "")
  else
    (0, "diff --git a/a.txt b/a.txt\n--- a/a.txt\n+++ b/a.txt\n@@ -1 +1 @@\n-a b\n+a  b\n")

/-- Embedding of the Patch value of Snapshot: checkpoint hash plus file list. -/
structure SnapshotPatch where
  hash : String
  files : List String
deriving DecidableEq, Repr

/-- Argument list of the git invocation inside Snapshot.patch. -/
def patchArgs (gd wt hash : String) : List String :=
  ["git", "-c", "core.autocrlf=false", "--git-dir", gd, "--work-tree", wt,
    "diff", "--no-ext-diff", "--name-only", hash, "--", "."]

/-- Embedding of Snapshot.patch: on a non-zero exit an empty file list; otherwise
the trimmed output is split into lines, each line trimmed, empty lines dropped,
and every name joined onto the worktree root with path.join. -/
def patchRun (env : RunEnv) (gd wt hash : String) : SnapshotPatch :=
  let r := env (patchArgs gd wt hash)
  if r.1 ≠ 0 then { hash := hash, files := [] }
  else
    { hash := hash
      files := ((splitNl (jsTrim r.2)).map (fun x => jsTrim x)).filter (fun x => x ≠ "")
        |>.map (fun x => pathJoin wt x) }

/-! ### Snapshot.revert -/

/-- Worktree contents: each path maps to its file content when the file exists. -/
def FS : Type := String → Option String

/-- Oracles for Snapshot.revert: the shadow object store (store h f is the
content of path f in the tree of checkpoint h, none when the tree does not
contain the path; git ls-tree reports exactly this membership), and whether the
checkout subprocess of an in-tree path succeeds (checkout of a path missing
from the tree always fails). -/
structure RevertEnv where
  store : String → String → Option String
  checkoutOk : String → String → Bool

/-- Pointwise update of a worktree. -/
def fsUpdate (fs : FS) (f : String) (v : Option String) : FS :=
  fun g => if g = f then v else fs g

/-- Outcome of Snapshot.revert for a single path against checkpoint h, given the
previous content: a successful checkout installs the stored content; a failed
checkout of an in-tree path keeps the previous content; a path absent from the
tree is unlinked. -/
def pointValue (env : RevertEnv) (h f : String) (old : Option String) : Option String :=
  match env.store h f with
  | some c => if env.checkoutOk h f then some c else old
  | none => none

/-- Processing of one path inside the Snapshot.revert loop. -/
def revertFile (env : RevertEnv) (h f : String) (fs : FS) : FS :=
  match env.store h f with
  | some c => if env.checkoutOk h f then fsUpdate fs f (some c) else fs
  | none => fsUpdate fs f none

/-- Inner loop of Snapshot.revert over one patch's file list, threading the set
of already visited files (a file already in the set is skipped and the set is
extended after each processed file, as in the source). -/
def revertFilesGo (env : RevertEnv) (h : String) :
    List String → List String → FS → List String × FS
  | [], seen, fs => (seen, fs)
  | f :: rest, seen, fs =>
    if f ∈ seen then revertFilesGo env h rest seen fs
    else revertFilesGo env h rest (f :: seen) (revertFile env h f fs)

/-- Outer loop of Snapshot.revert over the patch list. -/
def revertGo (env : RevertEnv) : List SnapshotPatch → List String → FS → FS
  | [], _, fs => fs
  | p :: rest, seen, fs =>
    let next := revertFilesGo env p.hash p.files seen fs
    revertGo env rest next.1 next.2

/-- Embedding of Snapshot.revert. -/
def revert (env : RevertEnv) (patches : List SnapshotPatch) (fs : FS) : FS :=
  revertGo env patches [] fs

/-- First patch of the list naming a given file. -/
def firstPatchFor (patches : List SnapshotPatch) (f : String) : Option SnapshotPatch :=
  patches.find? (fun p => decide (f ∈ p.files))

/-- Byte-order comparison of character lists via code points; agrees with
SQLite's BINARY text collation and JavaScript string comparison on the id
alphabets used by the code. -/
def charListLt : List Char → List Char → Bool
  | [], [] => false
  | [], _ :: _ => true
  | _ :: _, [] => false
  | a :: as, b :: bs => a.toNat < b.toNat || (a.toNat = b.toNat && charListLt as bs)

/-- Strict string comparison used for id and TEXT column ordering. -/
def strLt (a b : String) : Bool :=
  charListLt a.data b.data

/-! ### SyncMerger (packages/app/src/context/sync.tsx) -/

/-- Client-side message: the sortable id together with the rest of the record,
abstracted to a single payload field. -/
structure Msg where
  id : String
  body : Nat
deriving DecidableEq, Repr, Inhabited

/-- Modelled from the spec: Binary.search of the package @opencode-ai/util/binary
is not under src/.  The spec describes it as a binary search on the id-sorted
sequence returning the match position and found flag, or the insertion position
that preserves total order.  On a sorted list this is the lower bound, computed
here by scanning; the found flag says whether the element at that position
carries the searched id. -/
def lowerBound (l : List Msg) (target : String) : Nat :=
  (l.takeWhile (fun m => strLt m.id target)).length

def binarySearch (l : List Msg) (target : String) : Bool × Nat :=
  match l.drop (lowerBound l target) with
  | [] => (false, lowerBound l target)
  | m :: _ => (decide (m.id = target), lowerBound l target)

/-- Embedding of the JavaScript splice(index, 0, item) insertion. -/
def spliceInsert (l : List Msg) (n : Nat) (m : Msg) : List Msg :=
  l.take n ++ m :: l.drop n

/-- Embedding of mergeMessages of sync.tsx, acting on the stored message
sequence of one session (none models a session with no stored sequence).
Non-prune mode upserts each incoming item at its binary-search position; prune
mode replaces the slice between the first and last incoming ids wholesale. -/
def mergeMessages (prune : Bool) (current : Option (List Msg)) (items : List Msg) :
    Option (List Msg) :=
  if !prune then
    match items with
    | [] => current
    | _ :: _ =>
      match current with
      | none => some items
      | some cur =>
        some (items.foldl
          (fun acc item =>
            let r := binarySearch acc item.id
            if r.1 then acc.set r.2 item else spliceInsert acc r.2 item)
          cur)
  else
    match items with
    | [] => some []
    | i0 :: _ =>
      match current with
      | none => some items
      | some cur =>
        let firstR := binarySearch cur i0.id
        let lastR := binarySearch cur ((items.getLast?).getD i0).id
        let tailIndex := lastR.2 + (if lastR.1 then 1 else 0)
        some (cur.take firstR.2 ++ items ++ cur.drop tailIndex)

/-- Embedding of session.addOptimisticMessage of sync.tsx, restricted to the
message sequence: the locally created message is spliced in at the
binary-search index, with no found check. -/
def addOptimisticMessage (current : Option (List Msg)) (m : Msg) : Option (List Msg) :=
  match current with
  | none => some [m]
  | some ms => some (spliceInsert ms (binarySearch ms m.id).2 m)

/-- Embedding of session.mergeMessage of sync.tsx on the message sequence: a
single-item non-prune merge. -/
def mergeMessage (current : Option (List Msg)) (m : Msg) : Option (List Msg) :=
  mergeMessages false current [m]

/-! ### StorageSqlite (packages/opencode/src/storage/sqlite.ts) -/

/-- Secondary session attributes stored in the uninterpreted data column of
session_index (sessionIndexData in the source). -/
structure SessionExtraData where
  mode : Option String
  agent : Option String
  model : Option String
  variant : Option (Option String)
  thinking : Option Bool
  worktreeRequested : Option Bool
  worktreeCleanup : Option String
deriving DecidableEq, Repr

/-- Summary sub-object of a session payload. -/
structure SessionSummary where
  additions : Option Int
  deletions : Option Int
  files : Option Int
deriving DecidableEq, Repr

/-- Worktree sub-object of a session payload. -/
structure SessionWorktreeInfo where
  path : Option String
  branch : Option String
deriving DecidableEq, Repr

/-- Session payload handed to writeSession (SessionIndexInput in the source).
Optional string fields use none for both a missing field and a non-string
value, matching the typeof checks of the source; time components are unpacked. -/
structure SessionRecord where
  id : String
  projectID : String
  parentID : Option String
  title : Option String
  directory : Option String
  version : Option String
  summary : Option SessionSummary
  shareUrl : Option String
  worktree : Option SessionWorktreeInfo
  timeCreated : Option Int
  timeUpdated : Option Int
  timeArchived : Option Int
  mode : Option String
  agent : Option String
  model : Option String
  variant : Option (Option String)
  thinking : Option Bool
  worktreeRequested : Option Bool
  worktreeCleanup : Option String
deriving DecidableEq, Repr

/-- Row of the session_index table. -/
structure SessionIndexRecord where
  id : String
  projectID : String
  parentID : Option String
  title : String
  directory : String
  version : Option String
  created_at : Option Int
  updated_at : Option Int
  archived_at : Option Int
  additions : Int
  deletions : Int
  files_changed : Int
  share_url : Option String
  worktree_path : Option String
  worktree_branch : Option String
  data : Option SessionExtraData
deriving DecidableEq, Repr

/-- Row of the sessions table: indexed columns plus the JSON payload, stored
here as the structured record. -/
structure SessionsRow where
  id : String
  projectID : String
  parentID : Option String
  created_at : Option Int
  updated_at : Option Int
  payload : SessionRecord
deriving DecidableEq, Repr

/-- Database state: the two session tables and the meta flag
session-index-seeded. -/
structure StoreDB where
  sessions : List SessionsRow
  sessionIndex : List SessionIndexRecord
  seeded : Bool
deriving DecidableEq, Repr

/-- Embedding of sessionIndexData: collect the truthy or defined secondary
attributes; none when every attribute is absent. -/
def sessionIndexData (s : SessionRecord) : Option SessionExtraData :=
  let d : SessionExtraData :=
    { mode := s.mode
      agent := s.agent
      model := s.model
      variant := s.variant
      thinking := s.thinking
      worktreeRequested := if s.worktreeRequested.getD false then some true else none
      worktreeCleanup := s.worktreeCleanup }
  if d.mode.isSome || d.agent.isSome || d.model.isSome || d.variant.isSome ||
      d.thinking.isSome || d.worktreeRequested.isSome || d.worktreeCleanup.isSome then
    some d
  else none

/-- Embedding of sessionIndexRow: none (no index row) when the title or the
directory is missing or empty; otherwise the denormalized row, with updated_at
defaulting to created_at. -/
def sessionIndexRow (s : SessionRecord) : Option SessionIndexRecord :=
  let title := s.title.getD ""
  if title = "" then none
  else
    let directory := s.directory.getD ""
    if directory = "" then none
    else
      let createdAt := s.timeCreated
      let updatedAt := match s.timeUpdated with
        | some v => some v
        | none => createdAt
      some
        { id := s.id
          projectID := s.projectID
          parentID := s.parentID
          title := title
          directory := directory
          version := s.version
          created_at := createdAt
          updated_at := updatedAt
          archived_at := s.timeArchived
          additions := (s.summary.bind (fun x => x.additions)).getD 0
          deletions := (s.summary.bind (fun x => x.deletions)).getD 0
          files_changed := (s.summary.bind (fun x => x.files)).getD 0
          share_url := s.shareUrl
          worktree_path := s.worktree.bind (fun x => x.path)
          worktree_branch := s.worktree.bind (fun x => x.branch)
          data := sessionIndexData s }

/-- INSERT OR REPLACE / upsert on a table keyed by a string primary key: the
first row with the same key is replaced in place, otherwise the row is
appended. -/
def upsertBy (key : α → String) (row : α) : List α → List α
  | [] => [row]
  | x :: rest => if key x = key row then row :: rest else x :: upsertBy key row rest

/-- Embedding of writeSessionIndexWithDb: no-op when sessionIndexRow declines,
otherwise upsert of the index row. -/
def writeSessionIndexWithDb (db : StoreDB) (s : SessionRecord) : StoreDB :=
  match sessionIndexRow s with
  | none => db
  | some row => { db with sessionIndex := upsertBy (fun r => r.id) row db.sessionIndex }

/-- Upsert of the raw sessions row performed by writeSession. -/
def upsertSessionsRow (s : SessionRecord) (db : StoreDB) : StoreDB :=
  { db with
    sessions :=
      upsertBy (fun r => r.id)
        { id := s.id
          projectID := s.projectID
          parentID := s.parentID
          created_at := s.timeCreated
          updated_at := s.timeUpdated
          payload := s }
        db.sessions }

/-- Committed effect of writeSession: the sessions upsert followed by the
session_index recompute-and-upsert from the same payload. -/
def writeSession (db : StoreDB) (s : SessionRecord) : StoreDB :=
  writeSessionIndexWithDb (upsertSessionsRow s db) s

/-- Embedding of writeSession under the transaction of bun:sqlite: each of the
two statements may fail (fail1 for the sessions upsert, fail2 for the index
upsert), and any failure rolls the whole transaction back to the initial
state. -/
def writeSessionTx (fail1 fail2 : Bool) (db : StoreDB) (s : SessionRecord) : StoreDB :=
  if fail1 then db
  else
    let db1 := upsertSessionsRow s db
    match sessionIndexRow s with
    | none => db1
    | some row =>
      if fail2 then db
      else { db1 with sessionIndex := upsertBy (fun r => r.id) row db1.sessionIndex }

/-- Embedding of readSession: look up the sessions row and return its payload. -/
def readSession (db : StoreDB) (id : String) : Option SessionRecord :=
  (db.sessions.find? (fun r => decide (r.id = id))).map (fun r => r.payload)

/-- Embedding of ensureSessionIndex: when the seeding flag is unset, rewrite an
index row from every stored session payload and set the flag. -/
def ensureSessionIndex (db : StoreDB) : StoreDB :=
  if db.seeded then db
  else
    let db1 := db.sessions.foldl (fun acc row => writeSessionIndexWithDb acc row.payload) db
    { db1 with seeded := true }

/-- Query object of listSessionIndex. -/
structure SessionIndexQuery where
  projectID : String
  limit : Option Nat
  start : Option Int
  afterID : Option String
  search : Option String
  directory : Option String
  includeArchived : Option Bool
deriving Repr

/-- JavaScript truthiness of an optional string: the empty string is falsy. -/
def strTruthy : Option String → Option String
  | some "" => none
  | x => x

/-- ASCII lower-casing used by SQLite's NOCASE collation and default LIKE. -/
def asciiLower (c : Char) : Char :=
  if 'A' ≤ c ∧ c ≤ 'Z' then Char.ofNat (c.toNat + 32) else c

/-- SQLite LIKE matching (ASCII case-insensitive) of a pattern with the
percent and underscore wildcards against a string, over character lists. -/
def likeMatch : List Char → List Char → Bool
  | [], [] => true
  | [], _ :: _ => false
  | '%' :: ps, s =>
    likeMatch ps s ||
      (match s with
        | [] => false
        | _ :: cs => likeMatch ('%' :: ps) cs)
  | '_' :: ps, _ :: cs => likeMatch ps cs
  | '_' :: _, [] => false
  | p :: ps, c :: cs => (asciiLower p = asciiLower c) && likeMatch ps cs
  | _ :: _, [] => false
termination_by ps s => (ps.length, s.length)

/-- Clause title LIKE percent-search-percent COLLATE NOCASE. -/
def likeContains (search title : String) : Bool :=
  likeMatch ('%' :: (search.data ++ ['%'])) title.data

/-- WHERE clauses of listSessionIndex other than the cursor: project equality,
minimum updated_at (NULL never satisfies a SQL comparison), title LIKE, exact
directory, and archived_at IS NULL when archived rows are excluded. -/
def matchesQuery (q : SessionIndexQuery) (r : SessionIndexRecord) : Bool :=
  decide (r.projectID = q.projectID) &&
    (match q.start with
      | none => true
      | some s =>
        match r.updated_at with
        | none => false
        | some v => decide (s ≤ v)) &&
    (match strTruthy q.search with
      | none => true
      | some s => likeContains s r.title) &&
    (match strTruthy q.directory with
      | none => true
      | some d => decide (r.directory = d)) &&
    (if q.includeArchived.getD true then true else r.archived_at.isNone)

/-- Cursor clause of listSessionIndex: the cursor value is
updated_at else created_at else 0 of the afterID row, and a row qualifies when
COALESCE(updated_at, 0) is below the cursor, or equal with a smaller id. -/
def cursorPred (after : SessionIndexRecord) (r : SessionIndexRecord) : Bool :=
  let c : Int :=
    match after.updated_at with
    | some v => v
    | none =>
      match after.created_at with
      | some v => v
      | none => 0
  decide (r.updated_at.getD 0 < c) ||
    (decide (r.updated_at.getD 0 = c) && strLt r.id after.id)

/-- SQLite ordering of the nullable updated_at column: NULL is smaller than
every integer. -/
def updLt : Option Int → Option Int → Bool
  | none, none => false
  | none, some _ => true
  | some _, none => false
  | some a, some b => decide (a < b)

/-- Strict comparison meaning the first row comes strictly after the second in
the ORDER BY updated_at DESC, id DESC output. -/
def rowLater (a b : SessionIndexRecord) : Bool :=
  updLt a.updated_at b.updated_at ||
    (decide (a.updated_at = b.updated_at) && strLt a.id b.id)

/-- Sort relation of the listSessionIndex output: the first row is not strictly
after the second. -/
def rowBefore (a b : SessionIndexRecord) : Prop :=
  rowLater a b = false

instance : DecidableRel rowBefore := fun _ _ => inferInstanceAs (Decidable (_ = false))

/-- SELECT of listSessionIndex over an already ensured database: filter by the
fixed clauses, apply the cursor clause when the truthy afterID resolves to a
stored row, sort by updated_at DESC, id DESC, and apply the LIMIT. -/
def listSessionIndexRows (db : StoreDB) (q : SessionIndexQuery) : List SessionIndexRecord :=
  let base := db.sessionIndex.filter (matchesQuery q)
  let filtered :=
    match strTruthy q.afterID with
    | none => base
    | some aid =>
      match db.sessionIndex.find? (fun r => decide (r.id = aid)) with
      | none => base
      | some after => base.filter (cursorPred after)
  let sorted := List.insertionSort rowBefore filtered
  match q.limit with
  | none => sorted
  | some n => sorted.take n

/-- Embedding of listSessionIndex: ensure the index is seeded, then query. -/
def listSessionIndex (db : StoreDB) (q : SessionIndexQuery) :
    List SessionIndexRecord × StoreDB :=
  let db1 := ensureSessionIndex db
  (listSessionIndexRows db1 q, db1)

/-- Repeated cursor pagination of listSessionIndex: fetch a page with the given
limit, stop on an empty page, otherwise continue with afterID set to the id of
the page's last row. -/
def paginateAux (q : SessionIndexQuery) (n : Nat) :
    Nat → StoreDB → Option String → List SessionIndexRecord
  | 0, _, _ => []
  | Nat.succ fuel, db, cursor =>
    let step := listSessionIndex db { q with limit := some n, afterID := cursor }
    match step.1.getLast? with
    | none => []
    | some last => step.1 ++ paginateAux q n fuel step.2 (some last.id)

/-- Pagination driver: start with no cursor and enough fuel to exhaust the
table. -/
def paginateAll (db : StoreDB) (q : SessionIndexQuery) (n : Nat) : List SessionIndexRecord :=
  paginateAux q n (db.sessionIndex.length + 1) db none

/-! ### Helper lemmas: string comparison -/

theorem charEq_of_toNat_eq {a b : Char} (h : a.toNat = b.toNat) : a = b :=
  Char.ext (UInt32.ext h)

theorem charListLt_irrefl : ∀ l : List Char, charListLt l l = false := by
  intro l
  induction l with
  | nil => rfl
  | cons a as ih => simp [charListLt, ih]

theorem charListLt_trans :
    ∀ a b c : List Char, charListLt a b = true → charListLt b c = true → charListLt a c = true := by
  intro a
  induction a with
  | nil =>
    intro b c hab hbc
    cases b with
    | nil => exact hbc
    | cons y ys =>
      cases c with
      | nil => simp [charListLt] at hbc
      | cons z zs => simp [charListLt]
  | cons x xs ih =>
    intro b c hab hbc
    cases b with
    | nil => simp [charListLt] at hab
    | cons y ys =>
      cases c with
      | nil => simp [charListLt] at hbc
      | cons z zs =>
        simp only [charListLt, Bool.or_eq_true, Bool.and_eq_true, decide_eq_true_eq] at hab hbc ⊢
        rcases hab with h1 | ⟨h1, h2⟩ <;> rcases hbc with h3 | ⟨h3, h4⟩
        · exact Or.inl (Nat.lt_trans h1 h3)
        · exact Or.inl (h3 ▸ h1)
        · exact Or.inl (h1 ▸ h3)
        · exact Or.inr ⟨h1.trans h3, ih ys zs h2 h4⟩

theorem charListLt_conn :
    ∀ a b : List Char, charListLt a b = false → charListLt b a = false → a = b := by
  intro a
  induction a with
  | nil =>
    intro b hab _
    cases b with
    | nil => rfl
    | cons y ys => simp [charListLt] at hab
  | cons x xs ih =>
    intro b hab hba
    cases b with
    | nil => simp [charListLt] at hba
    | cons y ys =>
      simp only [charListLt, Bool.or_eq_false_iff, Bool.and_eq_false_iff, decide_eq_false_iff_not] at hab hba
      obtain ⟨hlt1, hrest1⟩ := hab
      obtain ⟨hlt2, hrest2⟩ := hba
      have hxy : x.toNat = y.toNat := by omega
      rcases hrest1 with h | h
      · exact absurd hxy h
      · rcases hrest2 with h2 | h2
        · exact absurd hxy.symm h2
        · exact congrArg₂ List.cons (charEq_of_toNat_eq hxy) (ih ys h h2)

theorem charListLt_asymm {a b : List Char} (h : charListLt a b = true) : charListLt b a = false := by
  by_contra hb
  have hb' : charListLt b a = true := by
    cases hba : charListLt b a with
    | false => exact absurd hba hb
    | true => rfl
  have := charListLt_trans a b a h hb'
  rw [charListLt_irrefl] at this
  exact Bool.false_ne_true this

theorem strLt_irrefl (a : String) : strLt a a = false :=
  charListLt_irrefl a.data

theorem strLt_trans {a b c : String} (h1 : strLt a b = true) (h2 : strLt b c = true) :
    strLt a c = true :=
  charListLt_trans a.data b.data c.data h1 h2

theorem strLt_asymm {a b : String} (h : strLt a b = true) : strLt b a = false :=
  charListLt_asymm h

theorem strLt_conn {a b : String} (h1 : strLt a b = false) (h2 : strLt b a = false) : a = b := by
  have := charListLt_conn a.data b.data h1 h2
  cases a
  cases b
  exact congrArg String.mk this

theorem strLt_ne {a b : String} (h : strLt a b = true) : a ≠ b := by
  intro he
  rw [he, strLt_irrefl] at h
  exact Bool.false_ne_true h

theorem strLt_of_not_of_ne {a b : String} (h : strLt a b = false) (hne : a ≠ b) :
    strLt b a = true := by
  cases hba : strLt b a with
  | true => rfl
  | false => exact absurd (strLt_conn h hba) hne

/-! ### Claim C1: writeSession transaction atomicity -/

/-- C1: every writeSession call either rolls back completely or commits both the
raw sessions upsert and the session_index recompute-and-upsert from the same
payload, so the resulting database is never a half-applied mixture. -/
theorem writeSession_tx_atomic (fail1 fail2 : Bool) (db : StoreDB) (s : SessionRecord) :
    writeSessionTx fail1 fail2 db s = db ∨ writeSessionTx fail1 fail2 db s = writeSession db s := by
  unfold writeSessionTx writeSession writeSessionIndexWithDb
  cases fail1 with
  | true => exact Or.inl (by simp)
  | false =>
    cases h : sessionIndexRow s with
    | none => exact Or.inr (by simp [h])
    | some row =>
      cases fail2 with
      | true => exact Or.inl (by simp [h])
      | false => exact Or.inr (by simp [h])

/-! ### Claim C5: Snapshot.diff and whitespace -/

/-- C5 counterexample: under the modelled git behavior of a repository whose
only change against the checkpoint is a whitespace-only edit, Snapshot.diff
returns a non-empty hunk, because its git invocation passes no
whitespace-ignoring flag; the claim that whitespace-only differences contribute
no hunk is false. -/
theorem diff_whitespace_counterexample :
    diffRun gitWhitespaceModel "/gd" "/wt" "H1" ≠ "" := by decide

/-- C5 amended: Snapshot.diff returns the empty string whenever the git diff
subprocess exits non-zero, and otherwise the trimmed subprocess output of a git
diff invoked without any whitespace-ignoring flag (whitespace-only changes
still produce hunks). -/
theorem diff_failure_empty (env : RunEnv) (gd wt h : String) :
    ((env (diffArgs gd wt h)).1 ≠ 0 → diffRun env gd wt h = "")
    ∧ ((env (diffArgs gd wt h)).1 = 0 → diffRun env gd wt h = jsTrim (env (diffArgs gd wt h)).2)
    ∧ (gd ∉ wsIgnoreFlags → wt ∉ wsIgnoreFlags → h ∉ wsIgnoreFlags →
        ∀ f ∈ wsIgnoreFlags, f ∉ diffArgs gd wt h) := by
  refine ⟨fun hne => ?_, fun hz => ?_, fun hg hw hh f hf hmem => ?_⟩
  · simp [diffRun, hne]
  · simp [diffRun, hz]
  · simp only [diffArgs, List.mem_cons, List.not_mem_nil, or_false] at hmem
    rcases hmem with rfl | rfl | rfl | rfl | rfl | rfl | rfl | rfl | rfl | rfl | rfl | rfl
    · exact absurd hf (by decide)
    · exact absurd hf (by decide)
    · exact absurd hf (by decide)
    · exact absurd hf (by decide)
    · exact hg hf
    · exact absurd hf (by decide)
    · exact hw hf
    · exact absurd hf (by decide)
    · exact absurd hf (by decide)
    · exact hh hf
    · exact absurd hf (by decide)
    · exact absurd hf (by decide)

/-- Witness for diff_failure_empty at concrete inputs. -/
theorem diff_failure_empty_witness :
    diffRun (fun _ => (1, "boom")) "/gd" "/wt" "H1" = ""
    ∧ ∀ f ∈ wsIgnoreFlags, f ∉ diffArgs "/gd" "/wt" "H1" :=
  ⟨(diff_failure_empty (fun _ => (1, "boom")) "/gd" "/wt" "H1").1 (by decide),
    (diff_failure_empty (fun _ => (1, "boom")) "/gd" "/wt" "H1").2.2 (by decide) (by decide)
      (by decide)⟩

/-! ### Claim C6: Snapshot.patch file paths -/

/-- C6 counterexample: when the git name-only diff reports the repository
relative name a.txt, Snapshot.patch returns the worktree-joined absolute path,
not the relative name the claim states. -/
theorem patch_files_counterexample :
    (patchRun (fun _ => (0, "a.txt\n")) "/gd" "/home/user/proj" "H1").files
        = ["/home/user/proj/a.txt"]
    ∧ (patchRun (fun _ => (0, "a.txt\n")) "/gd" "/home/user/proj" "H1").files ≠ ["a.txt"] := by
  constructor
  · decide
  · decide

/-- C6 amended: in the one-modified-file scenario patch(H1).files is the
one-element list holding path.join(worktree, "a.txt"); in general every
returned path is the worktree-joined image of a reported name, and a failing
diff subprocess yields an empty file list. -/
theorem patch_files_joined (env : RunEnv) (gd wt h : String) :
    ((env (patchArgs gd wt h)).1 ≠ 0 → patchRun env gd wt h = { hash := h, files := [] })
    ∧ (∀ f ∈ (patchRun env gd wt h).files, ∃ rel, f = pathJoin wt rel)
    ∧ (patchRun (fun _ => (0, "a.txt\n")) gd wt "H1").files = [pathJoin wt "a.txt"] := by
  refine ⟨fun hne => ?_, fun f hf => ?_, ?_⟩
  · simp [patchRun, hne]
  · unfold patchRun at hf
    by_cases hz : (env (patchArgs gd wt h)).1 = 0
    · simp only [hz, ne_eq, not_true_eq_false, if_neg, if_false] at hf
      simp only [List.mem_map] at hf
      obtain ⟨rel, _, hrel⟩ := hf
      exact ⟨rel, hrel.symm⟩
    · simp [hz] at hf
  · rfl

/-- Witness for patch_files_joined at concrete inputs. -/
theorem patch_files_joined_witness :
    patchRun (fun _ => (1, "")) "/gd" "/wt" "H1" = { hash := "H1", files := [] } :=
  (patch_files_joined (fun _ => (1, "")) "/gd" "/wt" "H1").1 (by decide)

/-! ### Claim C3: Worktree.remove safety boundary -/

/-- C3: Worktree.remove performs a destructive git or filesystem action only
when the normalized directory is inside the managed worktrees root with at
least a project and a name segment, and any path outside the managed root is
rejected with the typed delete-failed error before any action at all, leaving
the filesystem untouched. -/
theorem remove_managed_guard (data dir : String) (env : RemoveEnv) :
    ((removeRun data dir env).2.any destructiveAction = true →
        isManaged data (pathNormalize dir) = true ∧ 2 ≤ (managedParts data dir).length)
    ∧ (isManaged data (pathNormalize dir) = false →
        removeRun data dir env = (Except.error WorktreeError.deleteFailed, [])) := by
  constructor
  · intro hdes
    cases hm : isManaged data (pathNormalize dir) with
    | false =>
      exfalso
      unfold removeRun at hdes
      simp only [hm, Bool.not_false, if_true] at hdes
      exact absurd hdes (by decide)
    | true =>
      refine ⟨rfl, ?_⟩
      by_cases hp : (managedParts data dir).length < 2
      · exfalso
        unfold removeRun at hdes
        cases hs : env.statIsDir with
        | false =>
          simp only [hm, Bool.not_true, if_false, hs, Bool.not_false, if_true] at hdes
          exact absurd hdes (by decide)
        | true =>
          simp only [hm, Bool.not_true, if_false, hs, hp, if_true] at hdes
          exact absurd hdes (by decide)
      · omega
  · intro hm
    unfold removeRun
    simp [hm]

/-- Witness for remove_managed_guard: a path outside the managed root is
rejected with the typed error and no action is performed. -/
theorem remove_managed_guard_witness :
    removeRun "/data" "/etc/passwd"
        { statIsDir := true, gitCommonDir := some "/repo/.git", removeOk := fun _ => true,
          rmOk := true, pruneOk := true }
      = (Except.error WorktreeError.deleteFailed, []) :=
  (remove_managed_guard "/data" "/etc/passwd"
      { statIsDir := true, gitCommonDir := some "/repo/.git", removeOk := fun _ => true,
        rmOk := true, pruneOk := true }).2 (by decide)

/-! ### Claim C4: Snapshot.revert -/

theorem revertFile_point (env : RevertEnv) (h f : String) (fs : FS) (g : String) :
    revertFile env h f fs g = if g = f then pointValue env h f (fs f) else fs g := by
  cases hst : env.store h f with
  | none => by_cases hg : g = f <;> simp [revertFile, pointValue, fsUpdate, hst, hg]
  | some c =>
    cases hok : env.checkoutOk h f with
    | true => by_cases hg : g = f <;> simp [revertFile, pointValue, fsUpdate, hst, hok, hg]
    | false => by_cases hg : g = f <;> simp [revertFile, pointValue, fsUpdate, hst, hok, hg]

theorem revertFilesGo_mem (env : RevertEnv) (h : String) :
    ∀ (files seen : List String) (fs : FS) (g : String),
      g ∈ (revertFilesGo env h files seen fs).1 ↔ g ∈ seen ∨ g ∈ files := by
  intro files
  induction files with
  | nil => intro seen fs g; simp [revertFilesGo]
  | cons f rest ih =>
    intro seen fs g
    by_cases hf : f ∈ seen
    · rw [revertFilesGo, if_pos hf, ih]
      constructor
      · rintro (hg | hg)
        · exact Or.inl hg
        · exact Or.inr (List.mem_cons_of_mem f hg)
      · rintro (hg | hg)
        · exact Or.inl hg
        · rcases List.mem_cons.mp hg with rfl | hg
          · exact Or.inl hf
          · exact Or.inr hg
    · rw [revertFilesGo, if_neg hf, ih]
      constructor
      · rintro (hg | hg)
        · rcases List.mem_cons.mp hg with rfl | hg
          · exact Or.inr (List.mem_cons_self g rest)
          · exact Or.inl hg
        · exact Or.inr (List.mem_cons_of_mem f hg)
      · rintro (hg | hg)
        · exact Or.inl (List.mem_cons_of_mem f hg)
        · rcases List.mem_cons.mp hg with rfl | hg
          · exact Or.inl (List.mem_cons_self g seen)
          · exact Or.inr hg

theorem revertFilesGo_apply (env : RevertEnv) (h : String) :
    ∀ (files seen : List String) (fs : FS) (g : String),
      (revertFilesGo env h files seen fs).2 g =
        if g ∈ seen then fs g
        else if g ∈ files then pointValue env h g (fs g) else fs g := by
  intro files
  induction files with
  | nil =>
    intro seen fs g
    by_cases hg : g ∈ seen <;> simp [revertFilesGo, hg]
  | cons f rest ih =>
    intro seen fs g
    by_cases hf : f ∈ seen
    · rw [revertFilesGo, if_pos hf, ih]
      by_cases hg : g ∈ seen
      · simp [hg]
      · by_cases hgf : g = f
        · exact absurd (hgf ▸ hf) hg
        · by_cases hgr : g ∈ rest <;>
            simp [hg, hgr, hgf, List.mem_cons]
    · rw [revertFilesGo, if_neg hf, ih]
      have hpt := revertFile_point env h f fs
      by_cases hg : g ∈ seen
      · have hgf : g ≠ f := fun he => hf (he ▸ hg)
        simp [hg, List.mem_cons, hgf, hpt g]
      · by_cases hgf : g = f
        · subst hgf
          simp [hg, List.mem_cons, hpt g]
        · by_cases hgr : g ∈ rest <;>
            simp [hg, hgf, hgr, List.mem_cons, hpt g]

theorem revertGo_apply (env : RevertEnv) :
    ∀ (patches : List SnapshotPatch) (seen : List String) (fs : FS) (g : String),
      revertGo env patches seen fs g =
        if g ∈ seen then fs g
        else
          match firstPatchFor patches g with
          | none => fs g
          | some p => pointValue env p.hash g (fs g) := by
  intro patches
  induction patches with
  | nil =>
    intro seen fs g
    by_cases hg : g ∈ seen <;> simp [revertGo, firstPatchFor, hg]
  | cons p rest ih =>
    intro seen fs g
    rw [revertGo]
    rw [ih]
    have hmem := revertFilesGo_mem env p.hash p.files seen fs g
    have happ := revertFilesGo_apply env p.hash p.files seen fs g
    by_cases hg : g ∈ seen
    · have : g ∈ (revertFilesGo env p.hash p.files seen fs).1 := hmem.mpr (Or.inl hg)
      rw [if_pos this, if_pos hg, happ, if_pos hg]
    · by_cases hgf : g ∈ p.files
      · have : g ∈ (revertFilesGo env p.hash p.files seen fs).1 := hmem.mpr (Or.inr hgf)
        rw [if_pos this, if_neg hg, happ, if_neg hg, if_pos hgf]
        have : firstPatchFor (p :: rest) g = some p := by
          simp [firstPatchFor, List.find?, hgf]
        rw [this]
      · have hnot : g ∉ (revertFilesGo env p.hash p.files seen fs).1 := by
          intro hin
          rcases hmem.mp hin with hin | hin
          · exact hg hin
          · exact hgf hin
        rw [if_neg hnot, if_neg hg]
        have hfp : firstPatchFor (p :: rest) g = firstPatchFor rest g := by
          simp [firstPatchFor, List.find?, hgf]
        rw [hfp]
        have hfs : (revertFilesGo env p.hash p.files seen fs).2 g = fs g := by
          rw [happ, if_neg hg, if_neg hgf]
        cases firstPatchFor rest g with
        | none => simp [hfs]
        | some q => simp [hfs]

theorem pointValue_idem (env : RevertEnv) (h f : String) (old : Option String) :
    pointValue env h f (pointValue env h f old) = pointValue env h f old := by
  cases hst : env.store h f with
  | none => simp [pointValue, hst]
  | some c =>
    cases hok : env.checkoutOk h f with
    | true => simp [pointValue, hst, hok]
    | false => simp [pointValue, hst, hok]

/-- C4: Snapshot.revert restores every named file at most once, from the first
patch of the list naming it: if that checkpoint's tree holds the file, a
successful checkout installs the stored content and a failed checkout leaves
the file untouched; if the tree does not hold it the file is deleted.
Consequently reverting the same patch list twice ends in the same worktree
state as reverting it once. -/
theorem revert_first_patch_and_idem (env : RevertEnv) (patches : List SnapshotPatch) (fs : FS) :
    (∀ f, revert env patches fs f =
        match firstPatchFor patches f with
        | none => fs f
        | some p => pointValue env p.hash f (fs f))
    ∧ revert env patches (revert env patches fs) = revert env patches fs := by
  have hchar : ∀ (fs0 : FS) (f : String), revert env patches fs0 f =
      match firstPatchFor patches f with
      | none => fs0 f
      | some p => pointValue env p.hash f (fs0 f) := by
    intro fs0 f
    have := revertGo_apply env patches [] fs0 f
    simpa [revert] using this
  refine ⟨hchar fs, funext fun f => ?_⟩
  rw [hchar (revert env patches fs) f, hchar fs f]
  cases hfp : firstPatchFor patches f with
  | none => simp
  | some p => simp [pointValue_idem]

/-! ### Helper lemmas: sorted message sequences and binary search -/

/-- Sorted message sequence: ids strictly increasing. -/
def msgSorted (l : List Msg) : Prop :=
  l.Pairwise (fun a b => strLt a.id b.id = true)

instance (l : List Msg) : Decidable (msgSorted l) :=
  inferInstanceAs (Decidable (l.Pairwise _))

theorem take_takeWhile_length (p : α → Bool) :
    ∀ l : List α, l.take (l.takeWhile p).length = l.takeWhile p := by
  intro l
  induction l with
  | nil => rfl
  | cons a as ih =>
    cases hp : p a with
    | true => simp [List.takeWhile_cons, hp, ih]
    | false => simp [List.takeWhile_cons, hp]

theorem drop_takeWhile_length (p : α → Bool) :
    ∀ l : List α, l.drop (l.takeWhile p).length = l.dropWhile p := by
  intro l
  induction l with
  | nil => rfl
  | cons a as ih =>
    cases hp : p a with
    | true => simp [List.takeWhile_cons, List.dropWhile_cons, hp, ih]
    | false => simp [List.takeWhile_cons, List.dropWhile_cons, hp]

theorem head_dropWhile_not (p : α → Bool) :
    ∀ (l : List α) (h0 : α) (tl : List α), l.dropWhile p = h0 :: tl → p h0 = false := by
  intro l
  induction l with
  | nil => intro h0 tl h; cases h
  | cons a as ih =>
    intro h0 tl h
    cases hp : p a with
    | true =>
      rw [List.dropWhile_cons, if_pos hp] at h
      exact ih h0 tl h
    | false =>
      rw [List.dropWhile_cons, if_neg (by simp [hp])] at h
      cases h
      exact hp

theorem takeWhile_append_all {p : α → Bool} :
    ∀ {l1 : List α} (l2 : List α), (∀ x ∈ l1, p x = true) →
      (l1 ++ l2).takeWhile p = l1 ++ l2.takeWhile p := by
  intro l1
  induction l1 with
  | nil => intro l2 _; simp
  | cons a as ih =>
    intro l2 hall
    have ha : p a = true := hall a (List.mem_cons_self a as)
    rw [List.cons_append, List.takeWhile_cons, if_pos ha,
      ih l2 (fun x hx => hall x (List.mem_cons_of_mem a hx)), List.cons_append]

theorem spliceInsert_eq (l : List Msg) (m : Msg) :
    spliceInsert l (binarySearch l m.id).2 m =
      l.takeWhile (fun x => strLt x.id m.id) ++ m :: l.dropWhile (fun x => strLt x.id m.id) := by
  have hidx : (binarySearch l m.id).2 = (l.takeWhile (fun x => strLt x.id m.id)).length := by
    unfold binarySearch
    cases hd : l.drop (lowerBound l m.id) <;> simp [hd, lowerBound]
  rw [spliceInsert, hidx, take_takeWhile_length, drop_takeWhile_length]

theorem binarySearch_found_of_mem {l : List Msg} (hs : msgSorted l) {x : Msg}
    (hx : x ∈ l) (t : String) (ht : x.id = t) :
    (binarySearch l t).1 = true ∧
      l.dropWhile (fun y => strLt y.id t) ≠ [] ∧
      (l.dropWhile (fun y => strLt y.id t)).head? = some x := by
  have hxT : x ∉ l.takeWhile (fun y => strLt y.id t) := by
    intro hmem
    have := List.mem_takeWhile_imp hmem
    rw [ht, strLt_irrefl] at this
    exact Bool.false_ne_true this
  have hsplit : l.takeWhile (fun y => strLt y.id t) ++ l.dropWhile (fun y => strLt y.id t) = l :=
    List.takeWhile_append_dropWhile _ _
  have hxD : x ∈ l.dropWhile (fun y => strLt y.id t) := by
    have : x ∈ l.takeWhile (fun y => strLt y.id t) ++ l.dropWhile (fun y => strLt y.id t) := by
      rw [hsplit]; exact hx
    rcases List.mem_append.mp this with h | h
    · exact absurd h hxT
    · exact h
  cases hD : l.dropWhile (fun y => strLt y.id t) with
  | nil => rw [hD] at hxD; cases hxD
  | cons h0 tl =>
    have hD' := hD
    have hph0 : strLt h0.id t = false := head_dropWhile_not _ l h0 tl hD
    have hpairD : (h0 :: tl).Pairwise (fun a b => strLt a.id b.id = true) := by
      rw [← hD]
      exact hs.sublist (List.dropWhile_sublist _)
    have hx0 : x = h0 := by
      rw [hD] at hxD
      rcases List.mem_cons.mp hxD with h | h
      · exact h
      · exfalso
        have hlt : strLt h0.id x.id = true := (List.pairwise_cons.mp hpairD).1 x h
        rw [ht] at hlt
        rw [hlt] at hph0
        exact absurd hph0 (by decide)
    have hfound : (binarySearch l t).1 = true := by
      have hdrop : l.drop (lowerBound l t) = h0 :: tl := by
        rw [lowerBound, drop_takeWhile_length, hD]
      unfold binarySearch
      rw [hdrop]
      simp [← hx0, ht]
    exact ⟨hfound, List.cons_ne_nil h0 tl, by rw [hx0]; rfl⟩

theorem set_length_append (l1 l2 : List α) (a b : α) :
    (l1 ++ a :: l2).set l1.length b = l1 ++ b :: l2 := by
  induction l1 with
  | nil => rfl
  | cons x xs ih => simp [List.set, ih]

/-! ### Claim C8: optimistic insertion -/

/-- C8 counterexample: addOptimisticMessage splices the new message in without
the exact-match check, so inserting a message whose id is already present
yields two entries with the same id instead of overwriting in place. -/
theorem addOptimistic_duplicate_counterexample :
    ((addOptimisticMessage (some [⟨"m1", 0⟩]) ⟨"m1", 1⟩).getD []).countP
        (fun m => decide (m.id = "m1")) = 2 := by decide

/-- C8 amended: addOptimisticMessage inserts the local message at its
binary-search position, which keeps the sequence sorted and duplicate-free
whenever the id is not already present (an exact id match is duplicated, not
overwritten); and an authoritative message arriving through mergeMessage with
an id already present overwrites that entry in place without adding a second
entry. -/
theorem addOptimistic_sorted_insert (cur : List Msg) (m : Msg) (hs : msgSorted cur) :
    (m.id ∉ cur.map (fun x => x.id) →
        addOptimisticMessage (some cur) m =
          some (cur.takeWhile (fun x => strLt x.id m.id) ++
            m :: cur.dropWhile (fun x => strLt x.id m.id))
        ∧ msgSorted (cur.takeWhile (fun x => strLt x.id m.id) ++
            m :: cur.dropWhile (fun x => strLt x.id m.id)))
    ∧ (m.id ∈ cur.map (fun x => x.id) →
        mergeMessage (some cur) m = some (cur.map (fun x => if x.id = m.id then m else x))) := by
  constructor
  · intro hnot
    constructor
    · rw [addOptimisticMessage, spliceInsert_eq]
    · set p : Msg → Bool := fun x => strLt x.id m.id with hp
      have hsplit : cur.takeWhile p ++ cur.dropWhile p = cur := List.takeWhile_append_dropWhile _ _
      have hpair : (cur.takeWhile p ++ cur.dropWhile p).Pairwise
          (fun a b => strLt a.id b.id = true) := by rw [hsplit]; exact hs
      have hparts := List.pairwise_append.mp hpair
      have hmD : ∀ b ∈ cur.dropWhile p, strLt m.id b.id = true := by
        intro b hb
        cases hD : cur.dropWhile p with
        | nil => rw [hD] at hb; cases hb
        | cons h0 tl =>
          have hph0 : strLt h0.id m.id = false := head_dropWhile_not _ cur h0 tl hD
          have hne0 : h0.id ≠ m.id := by
            intro he
            apply hnot
            rw [← he]
            have : h0 ∈ cur := by
              rw [← hsplit]
              exact List.mem_append.mpr (Or.inr (by rw [hD]; exact List.mem_cons_self h0 tl))
            exact List.mem_map.mpr ⟨h0, this, rfl⟩
          have hm0 : strLt m.id h0.id = true := strLt_of_not_of_ne hph0 hne0
          rw [hD] at hb
          rcases List.mem_cons.mp hb with rfl | hb
          · exact hm0
          · have hpairD : (h0 :: tl).Pairwise (fun a b => strLt a.id b.id = true) := by
              rw [← hD]
              exact hs.sublist (List.dropWhile_sublist _)
            exact strLt_trans hm0 ((List.pairwise_cons.mp hpairD).1 b hb)
      rw [msgSorted, List.pairwise_append]
      refine ⟨hparts.1, ?_, ?_⟩
      · rw [List.pairwise_cons]
        exact ⟨hmD, hparts.2.1⟩
      · intro a ha b hb
        rcases List.mem_cons.mp hb with rfl | hb
        · simpa using List.mem_takeWhile_imp ha
        · exact hparts.2.2 a ha b hb
  · intro hmem
    obtain ⟨x, hx, hxid⟩ := List.mem_map.mp hmem
    obtain ⟨hfound, hDne, hDhead⟩ := binarySearch_found_of_mem hs hx m.id hxid
    set p : Msg → Bool := fun y => strLt y.id m.id with hp
    cases hD : cur.dropWhile p with
    | nil => exact absurd hD hDne
    | cons h0 tl =>
      have hx0 : h0 = x := by
        rw [hD] at hDhead
        simpa using hDhead
      have hsplit : cur.takeWhile p ++ h0 :: tl = cur := by
        rw [← hD]; exact List.takeWhile_append_dropWhile _ _
      have hidx : (binarySearch cur m.id).2 = (cur.takeWhile p).length := by
        unfold binarySearch
        cases hd : cur.drop (lowerBound cur m.id) <;> simp [hd, lowerBound, hp]
      have hset : cur.set (binarySearch cur m.id).2 m = cur.takeWhile p ++ m :: tl := by
        rw [hidx]
        have hgen := set_length_append (cur.takeWhile p) tl h0 m
        rw [hsplit] at hgen
        exact hgen
      have hmap : cur.map (fun y => if y.id = m.id then m else y) = cur.takeWhile p ++ m :: tl := by
        conv_lhs => rw [← hsplit]
        rw [List.map_append, List.map_cons]
        have h1 : (cur.takeWhile p).map (fun y => if y.id = m.id then m else y) = cur.takeWhile p := by
          have : ∀ y ∈ cur.takeWhile p, (fun y => if y.id = m.id then m else y) y = id y := by
            intro y hy
            have hlt : strLt y.id m.id = true := by simpa using List.mem_takeWhile_imp hy
            simp [strLt_ne hlt]
          rw [List.map_congr_left this, List.map_id]
        have h2 : (if h0.id = m.id then m else h0) = m := by
          rw [hx0, hxid]
          simp
        have h3 : tl.map (fun y => if y.id = m.id then m else y) = tl := by
          have hpairD : (h0 :: tl).Pairwise (fun a b => strLt a.id b.id = true) := by
            rw [← hD]
            exact hs.sublist (List.dropWhile_sublist _)
          have : ∀ y ∈ tl, (fun y => if y.id = m.id then m else y) y = id y := by
            intro y hy
            have hlt : strLt h0.id y.id = true := (List.pairwise_cons.mp hpairD).1 y hy
            rw [hx0, hxid] at hlt
            have : y.id ≠ m.id := fun he => strLt_ne hlt he.symm
            simp [this]
          rw [List.map_congr_left this, List.map_id]
        rw [h1, h2, h3]
      rw [mergeMessage, mergeMessages]
      simp only [Bool.not_false, if_true]
      rw [hmap]
      simp only [List.foldl_cons, List.foldl_nil, hfound, if_true, hset]

/-- Witness for addOptimistic_sorted_insert at concrete inputs. -/
theorem addOptimistic_sorted_insert_witness :
    (addOptimisticMessage (some [⟨"a", 0⟩, ⟨"c", 1⟩]) ⟨"b", 5⟩ =
        some ([⟨"a", 0⟩, ⟨"c", 1⟩].takeWhile (fun x => strLt x.id "b") ++
          ⟨"b", 5⟩ :: [⟨"a", 0⟩, ⟨"c", 1⟩].dropWhile (fun x => strLt x.id "b"))
      ∧ msgSorted ([⟨"a", 0⟩, ⟨"c", 1⟩].takeWhile (fun x => strLt x.id "b") ++
          ⟨"b", 5⟩ :: [⟨"a", 0⟩, ⟨"c", 1⟩].dropWhile (fun x => strLt x.id "b"))) :=
  (addOptimistic_sorted_insert [⟨"a", 0⟩, ⟨"c", 1⟩] ⟨"b", 5⟩ (by decide)).1 (by decide)

/-! ### Helper lemmas: prune-mode merge -/

theorem binarySearch_snd (l : List Msg) (t : String) :
    (binarySearch l t).2 = lowerBound l t := by
  unfold binarySearch
  cases hd : l.drop (lowerBound l t) <;> simp [hd]

theorem drop_lowerBound (l : List Msg) (t : String) :
    l.drop (lowerBound l t) = l.dropWhile (fun m => strLt m.id t) :=
  drop_takeWhile_length _ l

theorem take_lowerBound (l : List Msg) (t : String) :
    l.take (lowerBound l t) = l.takeWhile (fun m => strLt m.id t) :=
  take_takeWhile_length _ l

theorem binarySearch_fst_nil {l : List Msg} {t : String}
    (h : l.dropWhile (fun m => strLt m.id t) = []) : (binarySearch l t).1 = false := by
  unfold binarySearch
  rw [drop_lowerBound, h]

theorem binarySearch_fst_cons {l : List Msg} {t : String} {m0 : Msg} {tl : List Msg}
    (h : l.dropWhile (fun m => strLt m.id t) = m0 :: tl) :
    (binarySearch l t).1 = decide (m0.id = t) := by
  unfold binarySearch
  rw [drop_lowerBound, h]

theorem filter_lt_eq_takeWhile (t : String) :
    ∀ l : List Msg, msgSorted l →
      l.filter (fun x => strLt x.id t) = l.takeWhile (fun x => strLt x.id t) := by
  intro l
  induction l with
  | nil => intro _; rfl
  | cons a as ih =>
    intro hs
    have hpair := List.pairwise_cons.mp hs
    cases hp : strLt a.id t with
    | true =>
      rw [List.filter_cons, List.takeWhile_cons]
      simp only [hp, if_true]
      rw [ih hpair.2]
    | false =>
      rw [List.filter_cons, List.takeWhile_cons]
      simp only [hp, if_false, Bool.false_eq_true]
      rw [List.filter_eq_nil_iff]
      intro y hy hpy
      have h1 : strLt a.id y.id = true := hpair.1 y hy
      have := strLt_trans h1 hpy
      rw [this] at hp
      exact absurd hp (by decide)

theorem sorted_head_lt_getLast_or_eq (i0 : Msg) (rest : List Msg)
    (hi : msgSorted (i0 :: rest)) :
    strLt i0.id ((i0 :: rest).getLast (List.cons_ne_nil i0 rest)).id = true
      ∨ (i0 :: rest).getLast (List.cons_ne_nil i0 rest) = i0 := by
  have hmem := List.getLast_mem (List.cons_ne_nil i0 rest)
  rcases List.mem_cons.mp hmem with h | h
  · exact Or.inr h
  · exact Or.inl ((List.pairwise_cons.mp hi).1 _ h)

theorem sorted_dropLast_lt (items : List Msg) (hne : items ≠ []) (hi : msgSorted items) :
    ∀ x ∈ items.dropLast, strLt x.id (items.getLast hne).id = true := by
  intro x hx
  have hi2 : (items.dropLast ++ [items.getLast hne]).Pairwise (fun a b => strLt a.id b.id = true) := by
    rw [List.dropLast_append_getLast hne]
    exact hi
  exact (List.pairwise_append.mp hi2).2.2 x hx _ (List.mem_singleton.mpr rfl)

theorem drop_cursor_eq_filter (t : String) (cur : List Msg) (hs : msgSorted cur) :
    cur.drop ((binarySearch cur t).2 + (if (binarySearch cur t).1 then 1 else 0))
      = cur.filter (fun x => strLt t x.id) := by
  have hsplit :
      cur.takeWhile (fun x => strLt x.id t) ++ cur.dropWhile (fun x => strLt x.id t) = cur :=
    List.takeWhile_append_dropWhile _ _
  have hTnot : ∀ x ∈ cur.takeWhile (fun x => strLt x.id t), strLt t x.id = false := by
    intro x hx
    exact strLt_asymm (by simpa using List.mem_takeWhile_imp hx)
  cases hD : cur.dropWhile (fun x => strLt x.id t) with
  | nil =>
    rw [binarySearch_snd, binarySearch_fst_nil hD]
    simp only [Bool.false_eq_true, if_false, Nat.add_zero]
    rw [drop_lowerBound, hD]
    symm
    rw [List.filter_eq_nil_iff]
    intro a ha
    have hmem : a ∈ cur.takeWhile (fun x => strLt x.id t) ++ cur.dropWhile (fun x => strLt x.id t) := by
      rw [hsplit]; exact ha
    rcases List.mem_append.mp hmem with h | h
    · simp [hTnot a h]
    · rw [hD] at h; cases h
  | cons h0 tl =>
    have hph0 : strLt h0.id t = false := head_dropWhile_not _ cur h0 tl hD
    have hpairD : (h0 :: tl).Pairwise (fun a b => strLt a.id b.id = true) := by
      rw [← hD]; exact hs.sublist (List.dropWhile_sublist _)
    have hdropLB : cur.drop (lowerBound cur t) = h0 :: tl := by
      rw [drop_lowerBound, hD]
    have hfilter_decomp : cur.filter (fun x => strLt t x.id)
        = (cur.takeWhile (fun x => strLt x.id t)).filter (fun x => strLt t x.id)
          ++ (h0 :: tl).filter (fun x => strLt t x.id) := by
      conv_lhs => rw [← hsplit]
      rw [List.filter_append, hD]
    have hTnil : (cur.takeWhile (fun x => strLt x.id t)).filter (fun x => strLt t x.id) = [] := by
      rw [List.filter_eq_nil_iff]
      intro a ha
      simp [hTnot a ha]
    rcases Decidable.em (h0.id = t) with heq | hne
    · have hfst : (binarySearch cur t).1 = true := by
        rw [binarySearch_fst_cons hD]
        simp [heq]
      rw [binarySearch_snd, hfst]
      simp only [if_true]
      have hLHS : cur.drop (lowerBound cur t + 1) = tl := by
        rw [← List.drop_drop 1 (lowerBound cur t) cur, hdropLB]
        rfl
      rw [hLHS, hfilter_decomp, hTnil]
      have hh0 : strLt t h0.id = false := by
        rw [← heq]
        exact strLt_irrefl _
      rw [List.filter_cons]
      simp only [hh0, Bool.false_eq_true, if_false, List.nil_append]
      rw [List.filter_eq_self.mpr]
      intro y hy
      have := (List.pairwise_cons.mp hpairD).1 y hy
      rw [← heq]
      exact this
    · have hfst : (binarySearch cur t).1 = false := by
        rw [binarySearch_fst_cons hD]
        simp [hne]
      rw [binarySearch_snd, hfst]
      simp only [Bool.false_eq_true, if_false, Nat.add_zero]
      rw [hdropLB, hfilter_decomp, hTnil]
      have hh0 : strLt t h0.id = true := strLt_of_not_of_ne hph0 hne
      rw [List.filter_cons]
      simp only [hh0, if_true, List.nil_append]
      rw [List.filter_eq_self.mpr]
      intro y hy
      exact strLt_trans hh0 ((List.pairwise_cons.mp hpairD).1 y hy)

theorem mergeMessages_prune_cons (cur : List Msg) (i0 : Msg) (rest : List Msg) :
    mergeMessages true (some cur) (i0 :: rest)
      = some (cur.take (binarySearch cur i0.id).2 ++ (i0 :: rest) ++
          cur.drop ((binarySearch cur (((i0 :: rest).getLast?).getD i0).id).2 +
            (if (binarySearch cur (((i0 :: rest).getLast?).getD i0).id).1 then 1 else 0))) := rfl

theorem getLastD_eq_getLast (i0 : Msg) (rest : List Msg) :
    ((i0 :: rest).getLast?).getD i0 = (i0 :: rest).getLast (List.cons_ne_nil i0 rest) := by
  rw [List.getLast?_eq_getLast_of_ne_nil (List.cons_ne_nil i0 rest)]
  rfl

theorem mergeMessages_prune_char (cur : List Msg) (i0 : Msg) (rest : List Msg)
    (hc : msgSorted cur) :
    mergeMessages true (some cur) (i0 :: rest)
      = some (cur.filter (fun x => strLt x.id i0.id) ++ (i0 :: rest) ++
          cur.filter (fun x =>
            strLt ((i0 :: rest).getLast (List.cons_ne_nil i0 rest)).id x.id)) := by
  rw [mergeMessages_prune_cons, getLastD_eq_getLast]
  rw [binarySearch_snd cur i0.id, take_lowerBound, ← filter_lt_eq_takeWhile i0.id cur hc]
  rw [drop_cursor_eq_filter _ cur hc]

theorem prune_result_sorted (cur : List Msg) (i0 : Msg) (rest : List Msg)
    (hc : msgSorted cur) (hi : msgSorted (i0 :: rest)) :
    msgSorted (cur.filter (fun x => strLt x.id i0.id) ++ (i0 :: rest) ++
      cur.filter (fun x => strLt ((i0 :: rest).getLast (List.cons_ne_nil i0 rest)).id x.id)) := by
  set lastM := (i0 :: rest).getLast (List.cons_ne_nil i0 rest) with hlastM
  have hi0last : strLt i0.id lastM.id = true ∨ lastM = i0 :=
    sorted_head_lt_getLast_or_eq i0 rest hi
  have hFmem : ∀ x ∈ cur.filter (fun x => strLt x.id i0.id), strLt x.id i0.id = true := by
    intro x hx
    simpa using (List.mem_filter.mp hx).2
  have hSmem : ∀ x ∈ cur.filter (fun x => strLt lastM.id x.id), strLt lastM.id x.id = true := by
    intro x hx
    simpa using (List.mem_filter.mp hx).2
  have hItemLe : ∀ y ∈ i0 :: rest, y ∈ (i0 :: rest).dropLast ∨ y = lastM := by
    intro y hy
    have : y ∈ (i0 :: rest).dropLast ++ [lastM] := by
      rw [hlastM, List.dropLast_append_getLast (List.cons_ne_nil i0 rest)]
      exact hy
    rcases List.mem_append.mp this with h | h
    · exact Or.inl h
    · exact Or.inr (List.mem_singleton.mp h)
  have hDropLt : ∀ y ∈ (i0 :: rest).dropLast, strLt y.id lastM.id = true :=
    sorted_dropLast_lt (i0 :: rest) (List.cons_ne_nil i0 rest) hi
  have hItemS : ∀ y ∈ i0 :: rest, ∀ s ∈ cur.filter (fun x => strLt lastM.id x.id),
      strLt y.id s.id = true := by
    intro y hy s hs
    rcases hItemLe y hy with h | h
    · exact strLt_trans (hDropLt y h) (hSmem s hs)
    · rw [h]; exact hSmem s hs
  have hFitems : ∀ x ∈ cur.filter (fun x => strLt x.id i0.id), ∀ y ∈ i0 :: rest,
      strLt x.id y.id = true := by
    intro x hx y hy
    rcases List.mem_cons.mp hy with rfl | hy
    · exact hFmem x hx
    · exact strLt_trans (hFmem x hx) ((List.pairwise_cons.mp hi).1 y hy)
  rw [msgSorted, List.pairwise_append]
  refine ⟨?_, ?_, ?_⟩
  · rw [List.pairwise_append]
    refine ⟨hc.sublist (List.filter_sublist _), hi, hFitems⟩
  · exact hc.sublist (List.filter_sublist _)
  · intro a ha s hs
    rcases List.mem_append.mp ha with h | h
    · rcases hi0last with hlt | heq
      · exact strLt_trans (hFmem a h) (strLt_trans hlt (hSmem s hs))
      · exact strLt_trans (hFmem a h) (by rw [← heq]; exact hSmem s hs)
    · exact hItemS a h s hs

/-! ### Claim C7: mergeMessages prune mode -/

/-- C7: in prune mode mergeMessages replaces the slice of the existing sorted
sequence between the first and last incoming ids wholesale by the incoming
batch, keeping the strict prefix of rows below the first id and the strict
suffix above the last id, and doing so twice with the same batch gives the
same sequence as doing it once. -/
theorem mergeMessages_prune_replace_idem (cur : List Msg) (i0 : Msg) (rest : List Msg)
    (hc : msgSorted cur) (hi : msgSorted (i0 :: rest)) :
    mergeMessages true (some cur) (i0 :: rest)
      = some (cur.filter (fun x => strLt x.id i0.id) ++ (i0 :: rest) ++
          cur.filter (fun x =>
            strLt ((i0 :: rest).getLast (List.cons_ne_nil i0 rest)).id x.id))
    ∧ mergeMessages true (mergeMessages true (some cur) (i0 :: rest)) (i0 :: rest)
      = mergeMessages true (some cur) (i0 :: rest) := by
  set lastM := (i0 :: rest).getLast (List.cons_ne_nil i0 rest) with hlastM
  have hchar := mergeMessages_prune_char cur i0 rest hc
  refine ⟨hchar, ?_⟩
  set F := cur.filter (fun x => strLt x.id i0.id) with hF
  set S := cur.filter (fun x => strLt lastM.id x.id) with hS
  have hsorted' : msgSorted (F ++ (i0 :: rest) ++ S) :=
    prune_result_sorted cur i0 rest hc hi
  have hchar' := mergeMessages_prune_char (F ++ (i0 :: rest) ++ S) i0 rest hsorted'
  rw [hchar, hchar']
  have hi0last : strLt i0.id lastM.id = true ∨ lastM = i0 :=
    sorted_head_lt_getLast_or_eq i0 rest hi
  have hFmem : ∀ x ∈ F, strLt x.id i0.id = true := by
    intro x hx
    simpa using (List.mem_filter.mp hx).2
  have hSmem : ∀ x ∈ S, strLt lastM.id x.id = true := by
    intro x hx
    simpa using (List.mem_filter.mp hx).2
  have hItemGe : ∀ y ∈ i0 :: rest, strLt y.id i0.id = false := by
    intro y hy
    rcases List.mem_cons.mp hy with rfl | hy
    · exact strLt_irrefl _
    · exact strLt_asymm ((List.pairwise_cons.mp hi).1 y hy)
  have hItemLe : ∀ y ∈ i0 :: rest, strLt lastM.id y.id = false := by
    intro y hy
    have hmem : y ∈ (i0 :: rest).dropLast ++ [lastM] := by
      rw [hlastM, List.dropLast_append_getLast (List.cons_ne_nil i0 rest)]
      exact hy
    rcases List.mem_append.mp hmem with h | h
    · exact strLt_asymm (sorted_dropLast_lt (i0 :: rest) (List.cons_ne_nil i0 rest) hi y h)
    · rw [List.mem_singleton.mp h]
      exact strLt_irrefl _
  have hFeq : (F ++ (i0 :: rest) ++ S).filter (fun x => strLt x.id i0.id) = F := by
    rw [List.filter_append, List.filter_append]
    have h1 : F.filter (fun x => strLt x.id i0.id) = F :=
      List.filter_eq_self.mpr (fun a ha => hFmem a ha)
    have h2 : (i0 :: rest).filter (fun x => strLt x.id i0.id) = [] := by
      rw [List.filter_eq_nil_iff]
      intro a ha
      simp [hItemGe a ha]
    have h3 : S.filter (fun x => strLt x.id i0.id) = [] := by
      rw [List.filter_eq_nil_iff]
      intro a ha
      have hgt : strLt i0.id a.id = true := by
        rcases hi0last with hlt | heq
        · exact strLt_trans hlt (hSmem a ha)
        · rw [← heq]; exact hSmem a ha
      simp [strLt_asymm hgt]
    rw [h1, h2, h3, List.append_nil, List.append_nil]
  have hSeq : (F ++ (i0 :: rest) ++ S).filter (fun x => strLt lastM.id x.id) = S := by
    rw [List.filter_append, List.filter_append]
    have h1 : F.filter (fun x => strLt lastM.id x.id) = [] := by
      rw [List.filter_eq_nil_iff]
      intro a ha
      have hlt : strLt a.id lastM.id = true := by
        rcases hi0last with hl | heq
        · exact strLt_trans (hFmem a ha) hl
        · rw [heq]; exact hFmem a ha
      simp [strLt_asymm hlt]
    have h2 : (i0 :: rest).filter (fun x => strLt lastM.id x.id) = [] := by
      rw [List.filter_eq_nil_iff]
      intro a ha
      simp [hItemLe a ha]
    have h3 : S.filter (fun x => strLt lastM.id x.id) = S :=
      List.filter_eq_self.mpr (fun a ha => hSmem a ha)
    rw [h1, h2, h3, List.nil_append, List.nil_append]
  rw [hFeq, hSeq]

/-- Witness for mergeMessages_prune_replace_idem at concrete inputs. -/
theorem mergeMessages_prune_replace_idem_witness :
    mergeMessages true (some [Msg.mk "a" 0, Msg.mk "b" 1, Msg.mk "d" 2, Msg.mk "f" 3]) (Msg.mk "b" 9 :: [Msg.mk "c" 8, Msg.mk "d" 7])
        = some ([Msg.mk "a" 0, Msg.mk "b" 1, Msg.mk "d" 2, Msg.mk "f" 3].filter (fun x => strLt x.id "b") ++
            (Msg.mk "b" 9 :: [Msg.mk "c" 8, Msg.mk "d" 7]) ++
            [Msg.mk "a" 0, Msg.mk "b" 1, Msg.mk "d" 2, Msg.mk "f" 3].filter (fun x =>
              strLt ((Msg.mk "b" 9 :: [Msg.mk "c" 8, Msg.mk "d" 7]).getLast
                (List.cons_ne_nil _ _)).id x.id))
    ∧ mergeMessages true
          (mergeMessages true (some [Msg.mk "a" 0, Msg.mk "b" 1, Msg.mk "d" 2, Msg.mk "f" 3])
            (Msg.mk "b" 9 :: [Msg.mk "c" 8, Msg.mk "d" 7]))
          (Msg.mk "b" 9 :: [Msg.mk "c" 8, Msg.mk "d" 7])
      = mergeMessages true (some [Msg.mk "a" 0, Msg.mk "b" 1, Msg.mk "d" 2, Msg.mk "f" 3])
          (Msg.mk "b" 9 :: [Msg.mk "c" 8, Msg.mk "d" 7]) :=
  mergeMessages_prune_replace_idem [Msg.mk "a" 0, Msg.mk "b" 1, Msg.mk "d" 2, Msg.mk "f" 3]
    (Msg.mk "b" 9) [Msg.mk "c" 8, Msg.mk "d" 7] (by decide) (by decide)

/-! ### Helper lemmas: session store -/

theorem sessionIndexRow_id {s : SessionRecord} {r : SessionIndexRecord}
    (h : sessionIndexRow s = some r) : r.id = s.id := by
  unfold sessionIndexRow at h
  by_cases ht : s.title.getD "" = ""
  · simp [ht] at h
  · by_cases hd : s.directory.getD "" = ""
    · simp [ht, hd] at h
    · simp [ht, hd] at h
      rw [← h]

theorem sessionIndexRow_none_of_empty (s : SessionRecord)
    (h : s.title.getD "" = "" ∨ s.directory.getD "" = "") : sessionIndexRow s = none := by
  rcases h with h | h
  · simp [sessionIndexRow, h]
  · by_cases ht : s.title.getD "" = ""
    · simp [sessionIndexRow, ht]
    · simp [sessionIndexRow, ht, h]

theorem find?_upsertBy (key : α → String) (row : α) (t : String) (hkey : key row = t)
    (p : α → Bool) (hp : ∀ x, p x = decide (key x = t)) :
    ∀ l : List α, (upsertBy key row l).find? p = some row := by
  intro l
  induction l with
  | nil => simp [upsertBy, List.find?, hp, hkey]
  | cons x rest ih =>
    rw [upsertBy]
    by_cases hx : key x = key row
    · rw [if_pos hx]
      simp [List.find?, hp, hkey]
    · rw [if_neg hx]
      have hxt : ¬ key x = t := fun he => hx (he.trans hkey.symm)
      simp [List.find?, hp, hxt, ih]

theorem mem_upsertBy (key : α → String) (row : α) :
    ∀ l : List α, ∀ x ∈ upsertBy key row l, x = row ∨ x ∈ l := by
  intro l
  induction l with
  | nil =>
    intro x hx
    rcases List.mem_singleton.mp hx with rfl
    exact Or.inl rfl
  | cons y rest ih =>
    intro x hx
    rw [upsertBy] at hx
    by_cases hy : key y = key row
    · rw [if_pos hy] at hx
      rcases List.mem_cons.mp hx with rfl | hx
      · exact Or.inl rfl
      · exact Or.inr (List.mem_cons_of_mem y hx)
    · rw [if_neg hy] at hx
      rcases List.mem_cons.mp hx with rfl | hx
      · exact Or.inr (List.mem_cons_self x rest)
      · rcases ih x hx with h | h
        · exact Or.inl h
        · exact Or.inr (List.mem_cons_of_mem y h)

theorem mem_upsertBy_key_eq (key : α → String) (row : α) :
    ∀ l : List α, (l.map key).Nodup →
      ∀ x ∈ upsertBy key row l, key x = key row → x = row := by
  intro l
  induction l with
  | nil =>
    intro _ x hx _
    exact List.mem_singleton.mp hx
  | cons y rest ih =>
    intro hnd x hx hkx
    have hnd0 : (key y :: rest.map key).Nodup := by simpa using hnd
    have hnd' := List.nodup_cons.mp hnd0
    rw [upsertBy] at hx
    by_cases hy : key y = key row
    · rw [if_pos hy] at hx
      rcases List.mem_cons.mp hx with rfl | hx
      · rfl
      · exfalso
        apply hnd'.1
        have : key x = key y := hkx.trans hy.symm
        rw [← this]
        exact List.mem_map.mpr ⟨x, hx, rfl⟩
    · rw [if_neg hy] at hx
      rcases List.mem_cons.mp hx with rfl | hx
      · exact absurd hkx hy
      · exact ih hnd'.2 x hx hkx

theorem ensure_index_no_id (X : String) :
    ∀ (rows : List SessionsRow) (db : StoreDB),
      (∀ r ∈ db.sessionIndex, r.id ≠ X) →
      (∀ srow ∈ rows, srow.payload.id ≠ X ∨ sessionIndexRow srow.payload = none) →
      ∀ r ∈ (rows.foldl (fun acc row => writeSessionIndexWithDb acc row.payload) db).sessionIndex,
        r.id ≠ X := by
  intro rows
  induction rows with
  | nil => intro db hdb _ r hr; exact hdb r hr
  | cons srow rest ih =>
    intro db hdb hrows r hr
    rw [List.foldl_cons] at hr
    refine ih (writeSessionIndexWithDb db srow.payload) ?_
      (fun s hs => hrows s (List.mem_cons_of_mem srow hs)) r hr
    intro r2 hr2
    unfold writeSessionIndexWithDb at hr2
    cases hrow : sessionIndexRow srow.payload with
    | none => rw [hrow] at hr2; exact hdb r2 hr2
    | some ir =>
      rw [hrow] at hr2
      simp only at hr2
      rcases mem_upsertBy _ ir _ r2 hr2 with rfl | hmem
      · rw [sessionIndexRow_id hrow]
        rcases hrows srow (List.mem_cons_self srow rest) with h | h
        · exact h
        · rw [h] at hrow; cases hrow
      · exact hdb r2 hmem

theorem mem_listSessionIndexRows {db : StoreDB} {q : SessionIndexQuery}
    {r : SessionIndexRecord} (hr : r ∈ listSessionIndexRows db q) : r ∈ db.sessionIndex := by
  have hbase : ∀ x ∈ db.sessionIndex.filter (matchesQuery q), x ∈ db.sessionIndex :=
    fun x hx => (List.mem_filter.mp hx).1
  unfold listSessionIndexRows at hr
  dsimp only at hr
  split at hr
  · split at hr
    · exact hbase r ((List.mem_insertionSort rowBefore).mp hr)
    · split at hr
      · exact hbase r ((List.mem_insertionSort rowBefore).mp hr)
      · exact hbase r (List.mem_of_mem_filter ((List.mem_insertionSort rowBefore).mp hr))
  · split at hr
    · exact hbase r ((List.mem_insertionSort rowBefore).mp ((List.take_sublist _ _).subset hr))
    · split at hr
      · exact hbase r ((List.mem_insertionSort rowBefore).mp ((List.take_sublist _ _).subset hr))
      · exact hbase r
          (List.mem_of_mem_filter ((List.mem_insertionSort rowBefore).mp
            ((List.take_sublist _ _).subset hr)))

/-! ### Claim C10: sessions with empty title or directory -/

/-- C10: when the payload's title or directory is missing or empty, writeSession
still upserts the raw sessions row, so readSession returns the payload, but it
writes no session_index row: the index table is left exactly as it was (an
existing stale row for the id included), and if no index row for the id ever
existed, every listSessionIndex result excludes that id even after the lazy
reseeding pass. -/
theorem writeSession_empty_title_skips_index (db : StoreDB) (s : SessionRecord)
    (hempty : s.title.getD "" = "" ∨ s.directory.getD "" = "")
    (hwf : ∀ row ∈ db.sessions, row.payload.id = row.id)
    (hnd : (db.sessions.map (fun r => r.id)).Nodup) :
    (writeSession db s).sessionIndex = db.sessionIndex
    ∧ readSession (writeSession db s) s.id = some s
    ∧ ((∀ r ∈ db.sessionIndex, r.id ≠ s.id) →
        ∀ (q : SessionIndexQuery) (r : SessionIndexRecord),
          r ∈ (listSessionIndex (writeSession db s) q).1 → r.id ≠ s.id) := by
  have hrow := sessionIndexRow_none_of_empty s hempty
  have hidx : (writeSession db s).sessionIndex = db.sessionIndex := by
    simp [writeSession, writeSessionIndexWithDb, hrow, upsertSessionsRow]
  have hsess : (writeSession db s).sessions =
      upsertBy (fun r => r.id)
        { id := s.id, projectID := s.projectID, parentID := s.parentID,
          created_at := s.timeCreated, updated_at := s.timeUpdated, payload := s }
        db.sessions := by
    simp [writeSession, writeSessionIndexWithDb, hrow, upsertSessionsRow]
  refine ⟨hidx, ?_, ?_⟩
  · unfold readSession
    rw [hsess, find?_upsertBy (fun r => r.id)
      { id := s.id, projectID := s.projectID, parentID := s.parentID,
        created_at := s.timeCreated, updated_at := s.timeUpdated, payload := s }
      s.id rfl (fun r => decide (r.id = s.id)) (fun _ => rfl) db.sessions]
    rfl
  · intro hnone q r hr
    unfold listSessionIndex at hr
    have hr2 := mem_listSessionIndexRows hr
    have hens : ∀ r2 ∈ (ensureSessionIndex (writeSession db s)).sessionIndex, r2.id ≠ s.id := by
      unfold ensureSessionIndex
      by_cases hseed : (writeSession db s).seeded
      · rw [if_pos hseed]
        rw [hidx]
        exact hnone
      · rw [if_neg hseed]
        intro r2 hr2
        refine ensure_index_no_id s.id (writeSession db s).sessions (writeSession db s)
          (by rw [hidx]; exact hnone) ?_ r2 hr2
        intro srow hsrow
        rw [hsess] at hsrow
        by_cases hkey : srow.id = s.id
        · have heq : srow =
              { id := s.id, projectID := s.projectID, parentID := s.parentID,
                created_at := s.timeCreated, updated_at := s.timeUpdated, payload := s } :=
            mem_upsertBy_key_eq (fun r => r.id) _ db.sessions hnd srow hsrow hkey
          right
          rw [heq]
          exact hrow
        · left
          rcases mem_upsertBy (fun r => r.id) _ db.sessions srow hsrow with heq | hmem
          · exfalso
            apply hkey
            rw [heq]
          · rw [hwf srow hmem]
            exact hkey
    exact hens r hr2

/-- Witness for writeSession_empty_title_skips_index at a concrete payload with
no title. -/
theorem writeSession_empty_title_skips_index_witness :
    (writeSession { sessions := [], sessionIndex := [], seeded := false }
          { id := "s1", projectID := "p1", parentID := none, title := none, directory := some "/d",
            version := none, summary := none, shareUrl := none, worktree := none,
            timeCreated := some 100, timeUpdated := none, timeArchived := none, mode := none,
            agent := none, model := none, variant := none, thinking := none,
            worktreeRequested := none, worktreeCleanup := none }).sessionIndex
        = ({ sessions := [], sessionIndex := [], seeded := false } : StoreDB).sessionIndex
    ∧ readSession
          (writeSession { sessions := [], sessionIndex := [], seeded := false }
            { id := "s1", projectID := "p1", parentID := none, title := none,
              directory := some "/d", version := none, summary := none, shareUrl := none,
              worktree := none, timeCreated := some 100, timeUpdated := none,
              timeArchived := none, mode := none, agent := none, model := none, variant := none,
              thinking := none, worktreeRequested := none, worktreeCleanup := none }) "s1"
        = some
            { id := "s1", projectID := "p1", parentID := none, title := none,
              directory := some "/d", version := none, summary := none, shareUrl := none,
              worktree := none, timeCreated := some 100, timeUpdated := none,
              timeArchived := none, mode := none, agent := none, model := none, variant := none,
              thinking := none, worktreeRequested := none, worktreeCleanup := none }
    ∧ ((∀ r ∈ ({ sessions := [], sessionIndex := [], seeded := false } : StoreDB).sessionIndex,
          r.id ≠ "s1") →
        ∀ (q : SessionIndexQuery) (r : SessionIndexRecord),
          r ∈ (listSessionIndex
              (writeSession { sessions := [], sessionIndex := [], seeded := false }
                { id := "s1", projectID := "p1", parentID := none, title := none,
                  directory := some "/d", version := none, summary := none, shareUrl := none,
                  worktree := none, timeCreated := some 100, timeUpdated := none,
                  timeArchived := none, mode := none, agent := none, model := none,
                  variant := none, thinking := none, worktreeRequested := none,
                  worktreeCleanup := none }) q).1 → r.id ≠ "s1") :=
  writeSession_empty_title_skips_index { sessions := [], sessionIndex := [], seeded := false }
    { id := "s1", projectID := "p1", parentID := none, title := none, directory := some "/d",
      version := none, summary := none, shareUrl := none, worktree := none,
      timeCreated := some 100, timeUpdated := none, timeArchived := none, mode := none,
      agent := none, model := none, variant := none, thinking := none,
      worktreeRequested := none, worktreeCleanup := none }
    (Or.inl rfl) (by simp) (by simp)

/-! ### Helper lemmas: session index ordering -/

theorem updLt_irrefl (x : Option Int) : updLt x x = false := by
  cases x <;> simp [updLt]

theorem updLt_trans {x y z : Option Int} (h1 : updLt x y = true) (h2 : updLt y z = true) :
    updLt x z = true := by
  cases x <;> cases y <;> cases z <;> simp [updLt] at h1 h2 ⊢ <;> omega

theorem updLt_asymm {x y : Option Int} (h : updLt x y = true) : updLt y x = false := by
  cases x <;> cases y <;> simp [updLt] at h ⊢ <;> omega

theorem updLt_conn {x y : Option Int} (h1 : updLt x y = false) (h2 : updLt y x = false) :
    x = y := by
  cases x <;> cases y <;> simp [updLt] at h1 h2 ⊢ <;> omega

theorem rowLater_irrefl (a : SessionIndexRecord) : rowLater a a = false := by
  unfold rowLater
  rw [updLt_irrefl, strLt_irrefl]
  simp

theorem rowLater_iff {a b : SessionIndexRecord} :
    rowLater a b = true ↔
      updLt a.updated_at b.updated_at = true
        ∨ (a.updated_at = b.updated_at ∧ strLt a.id b.id = true) := by
  unfold rowLater
  simp

theorem rowLater_trans {a b c : SessionIndexRecord} (h1 : rowLater a b = true)
    (h2 : rowLater b c = true) : rowLater a c = true := by
  rw [rowLater_iff] at h1 h2 ⊢
  rcases h1 with h1 | ⟨he1, hs1⟩ <;> rcases h2 with h2 | ⟨he2, hs2⟩
  · exact Or.inl (updLt_trans h1 h2)
  · exact Or.inl (he2 ▸ h1)
  · exact Or.inl (he1 ▸ h2)
  · exact Or.inr ⟨he1.trans he2, strLt_trans hs1 hs2⟩

theorem rowLater_asymm {a b : SessionIndexRecord} (h : rowLater a b = true) :
    rowLater b a = false := by
  cases hba : rowLater b a with
  | false => rfl
  | true =>
    have := rowLater_trans h hba
    rw [rowLater_irrefl] at this
    exact absurd this (by decide)

theorem rowLater_tri (a b : SessionIndexRecord) :
    rowLater a b = true ∨ rowLater b a = true
      ∨ (a.updated_at = b.updated_at ∧ a.id = b.id) := by
  cases hu : updLt a.updated_at b.updated_at with
  | true => exact Or.inl (rowLater_iff.mpr (Or.inl hu))
  | false =>
    cases hu2 : updLt b.updated_at a.updated_at with
    | true => exact Or.inr (Or.inl (rowLater_iff.mpr (Or.inl hu2)))
    | false =>
      have he : a.updated_at = b.updated_at := updLt_conn hu hu2
      cases hs : strLt a.id b.id with
      | true => exact Or.inl (rowLater_iff.mpr (Or.inr ⟨he, hs⟩))
      | false =>
        cases hs2 : strLt b.id a.id with
        | true => exact Or.inr (Or.inl (rowLater_iff.mpr (Or.inr ⟨he.symm, hs2⟩)))
        | false => exact Or.inr (Or.inr ⟨he, strLt_conn hs hs2⟩)

instance : IsTotal SessionIndexRecord rowBefore := by
  constructor
  intro a b
  cases hab : rowLater a b with
  | false => exact Or.inl hab
  | true => exact Or.inr (rowLater_asymm hab)

instance : IsTrans SessionIndexRecord rowBefore := by
  constructor
  intro a b c hab hbc
  unfold rowBefore at hab hbc ⊢
  cases hac : rowLater a c with
  | false => rfl
  | true =>
    exfalso
    rcases rowLater_tri b c with h | h | ⟨he, hid⟩
    · rw [h] at hbc; cases hbc
    · have := rowLater_trans hac h
      rw [this] at hab
      cases hab
    · have hcb : rowLater a b = true := by
        rw [rowLater_iff] at hac ⊢
        rcases hac with h | ⟨h1, h2⟩
        · exact Or.inl (he ▸ h)
        · exact Or.inr ⟨h1.trans he.symm, hid ▸ h2⟩
      rw [hcb] at hab
      cases hab

theorem sorted_nodup_unique :
    ∀ {l1 l2 : List SessionIndexRecord}, l1.Perm l2 →
      l1.Pairwise rowBefore → l2.Pairwise rowBefore →
      (l1.map (fun r => r.id)).Nodup → l1 = l2 := by
  intro l1
  induction l1 with
  | nil =>
    intro l2 hp _ _ _
    exact (hp.symm.eq_nil).symm
  | cons a t1 ih =>
    intro l2 hp hs1 hs2 hnd
    cases l2 with
    | nil => exact absurd hp.eq_nil (by simp)
    | cons b t2 =>
      have hab : a = b := by
        by_contra hne
        have haIn : a ∈ b :: t2 := hp.subset (List.mem_cons_self a t1)
        have hbIn : b ∈ a :: t1 := hp.symm.subset (List.mem_cons_self b t2)
        have hbT1 : b ∈ t1 := by
          rcases List.mem_cons.mp hbIn with h | h
          · exact absurd h.symm hne
          · exact h
        have hrb : rowLater a b = false := (List.pairwise_cons.mp hs1).1 b hbT1
        have haT2 : a ∈ t2 := by
          rcases List.mem_cons.mp haIn with h | h
          · exact absurd h hne
          · exact h
        have hra : rowLater b a = false := (List.pairwise_cons.mp hs2).1 a haT2
        rcases rowLater_tri a b with h | h | ⟨_, hid⟩
        · rw [h] at hrb; cases hrb
        · rw [h] at hra; cases hra
        · have hnd0 : (a.id :: t1.map (fun r => r.id)).Nodup := by simpa using hnd
          have hnd' := List.nodup_cons.mp hnd0
          apply hnd'.1
          rw [hid]
          exact List.mem_map.mpr ⟨b, hbT1, rfl⟩
      subst hab
      have hperm : t1.Perm t2 := hp.cons_inv
      have hnd0 : (a.id :: t1.map (fun r => r.id)).Nodup := by simpa using hnd
      have hnd' := List.nodup_cons.mp hnd0
      rw [ih hperm (List.pairwise_cons.mp hs1).2 (List.pairwise_cons.mp hs2).2 hnd'.2]

theorem sorted_strict {l : List SessionIndexRecord} (hs : l.Pairwise rowBefore)
    (hnd : (l.map (fun r => r.id)).Nodup) :
    l.Pairwise (fun x y => rowLater y x = true) := by
  have hid : l.Pairwise (fun x y => x.id ≠ y.id) := by
    rw [List.Nodup, List.pairwise_map] at hnd
    exact hnd
  have hand := hs.and hid
  refine hand.imp ?_
  intro x y hxy
  rcases rowLater_tri x y with h | h | ⟨_, hide⟩
  · rw [hxy.1] at h; cases h
  · exact h
  · exact absurd hide hxy.2

theorem filter_later_suffix (a : SessionIndexRecord) :
    ∀ (l1 l2 : List SessionIndexRecord),
      (l1 ++ a :: l2).Pairwise (fun x y => rowLater y x = true) →
      (l1 ++ a :: l2).filter (fun r => rowLater r a) = l2 := by
  intro l1 l2 hp
  have hparts := List.pairwise_append.mp hp
  rw [List.filter_append]
  have h1 : l1.filter (fun r => rowLater r a) = [] := by
    rw [List.filter_eq_nil_iff]
    intro x hx
    have : rowLater a x = true := hparts.2.2 x hx a (List.mem_cons_self a l2)
    simp [rowLater_asymm this]
  have h2 : (a :: l2).filter (fun r => rowLater r a) = l2 := by
    rw [List.filter_cons]
    simp only [rowLater_irrefl, Bool.false_eq_true, if_false]
    exact List.filter_eq_self.mpr (fun x hx => (List.pairwise_cons.mp hparts.2.1).1 x hx)
  rw [h1, h2, List.nil_append]

theorem cursorPred_eq_rowLater {after r : SessionIndexRecord} {u v : Int}
    (hr : r.updated_at = some u) (ha : after.updated_at = some v) :
    cursorPred after r = rowLater r after := by
  unfold cursorPred rowLater updLt
  rw [hr, ha]
  simp

theorem find?_id (tbl : List SessionIndexRecord) (hnd : (tbl.map (fun r => r.id)).Nodup)
    (a : SessionIndexRecord) (ha : a ∈ tbl) :
    tbl.find? (fun r => decide (r.id = a.id)) = some a := by
  induction tbl with
  | nil => cases ha
  | cons x rest ih =>
    have hnd0 : (x.id :: rest.map (fun r => r.id)).Nodup := by simpa using hnd
    have hnd' := List.nodup_cons.mp hnd0
    by_cases hx : x.id = a.id
    · have hxa : x = a := by
        rcases List.mem_cons.mp ha with h | h
        · exact h.symm
        · exfalso
          apply hnd'.1
          rw [hx]
          exact List.mem_map.mpr ⟨a, h, rfl⟩
      simp [List.find?, hx, hxa]
    · have haRest : a ∈ rest := by
        rcases List.mem_cons.mp ha with h | h
        · exact absurd (show x.id = a.id by rw [h]) hx
        · exact h
      simp only [List.find?, hx, decide_eq_true_eq, ite_false, if_false, decide_eq_false_iff_not]
      simp [List.find?, hx]
      exact ih hnd'.2 haRest

theorem strTruthy_some {s : String} (h : s ≠ "") : strTruthy (some s) = some s := by
  unfold strTruthy
  split
  · rename_i heq
    exact absurd (by injection heq) h
  · rfl

theorem ensure_seeded {db : StoreDB} (h : db.seeded = true) : ensureSessionIndex db = db := by
  simp [ensureSessionIndex, h]

theorem listSessionIndex_seeded {db : StoreDB} (h : db.seeded = true) (q : SessionIndexQuery) :
    listSessionIndex db q = (listSessionIndexRows db q, db) := by
  unfold listSessionIndex
  rw [ensure_seeded h]

theorem listSessionIndexRows_no_cursor (db : StoreDB) (q : SessionIndexQuery) (n : Nat) :
    listSessionIndexRows db { q with limit := some n, afterID := none }
      = (listSessionIndexRows db { q with limit := none, afterID := none }).take n := rfl

theorem listSessionIndexRows_cursor (db : StoreDB) (q : SessionIndexQuery) (n : Nat)
    (hnn : ∀ r ∈ db.sessionIndex, r.updated_at ≠ none)
    (hid : ∀ r ∈ db.sessionIndex, r.id ≠ "")
    (hnd : (db.sessionIndex.map (fun r => r.id)).Nodup)
    (l1 l2 : List SessionIndexRecord) (a : SessionIndexRecord)
    (hL : listSessionIndexRows db { q with limit := none, afterID := none } = l1 ++ a :: l2) :
    listSessionIndexRows db { q with limit := some n, afterID := some a.id } = l2.take n := by
  have hLdef : listSessionIndexRows db { q with limit := none, afterID := none }
      = List.insertionSort rowBefore (db.sessionIndex.filter (matchesQuery q)) := rfl
  rw [hLdef] at hL
  have hperm : (l1 ++ a :: l2).Perm (db.sessionIndex.filter (matchesQuery q)) := by
    rw [← hL]
    exact List.perm_insertionSort rowBefore _
  have hsorted : (l1 ++ a :: l2).Pairwise rowBefore := by
    rw [← hL]
    exact List.sorted_insertionSort rowBefore _
  have hBsub : ∀ x ∈ db.sessionIndex.filter (matchesQuery q), x ∈ db.sessionIndex :=
    fun x hx => (List.mem_filter.mp hx).1
  have hLsub : ∀ x ∈ l1 ++ a :: l2, x ∈ db.sessionIndex :=
    fun x hx => hBsub x (hperm.subset hx)
  have hBnodup : ((db.sessionIndex.filter (matchesQuery q)).map (fun r => r.id)).Nodup :=
    List.Nodup.sublist ((List.filter_sublist _).map _) hnd
  have hLnodup : ((l1 ++ a :: l2).map (fun r => r.id)).Nodup :=
    ((hperm.map (fun r => r.id)).nodup_iff).mpr hBnodup
  have haTbl : a ∈ db.sessionIndex :=
    hLsub a (List.mem_append.mpr (Or.inr (List.mem_cons_self a l2)))
  have haid : a.id ≠ "" := hid a haTbl
  obtain ⟨v, hv⟩ : ∃ v, a.updated_at = some v := by
    cases hu : a.updated_at with
    | none => exact absurd hu (hnn a haTbl)
    | some v => exact ⟨v, rfl⟩
  have hfilter_eq : (l1 ++ a :: l2).filter (cursorPred a)
      = (l1 ++ a :: l2).filter (fun r => rowLater r a) := by
    apply List.filter_congr
    intro x hx
    obtain ⟨u, hu⟩ : ∃ u, x.updated_at = some u := by
      cases hxu : x.updated_at with
      | none => exact absurd hxu (hnn x (hLsub x hx))
      | some u => exact ⟨u, rfl⟩
    exact cursorPred_eq_rowLater hu hv
  have hstrict := sorted_strict hsorted hLnodup
  have hsuffix : (l1 ++ a :: l2).filter (fun r => rowLater r a) = l2 :=
    filter_later_suffix a l1 l2 hstrict
  have hsortEq : List.insertionSort rowBefore
      ((db.sessionIndex.filter (matchesQuery q)).filter (cursorPred a)) = l2 := by
    apply sorted_nodup_unique
    · have hp1 := List.perm_insertionSort rowBefore
        ((db.sessionIndex.filter (matchesQuery q)).filter (cursorPred a))
      have hp2 : ((db.sessionIndex.filter (matchesQuery q)).filter (cursorPred a)).Perm
          ((l1 ++ a :: l2).filter (cursorPred a)) := (hperm.filter _).symm
      have hp3 := hp1.trans hp2
      rw [hfilter_eq, hsuffix] at hp3
      exact hp3
    · exact List.sorted_insertionSort rowBefore _
    · have hsub2 : l2.Sublist (l1 ++ a :: l2) :=
        (List.sublist_cons_self a l2).trans (List.sublist_append_right l1 (a :: l2))
      exact hsorted.sublist hsub2
    · have hp2 := (List.perm_insertionSort rowBefore
          ((db.sessionIndex.filter (matchesQuery q)).filter (cursorPred a))).map (fun r => r.id)
      exact hp2.nodup_iff.mpr (List.Nodup.sublist ((List.filter_sublist _).map _) hBnodup)
  have hfind : db.sessionIndex.find? (fun r => decide (r.id = a.id)) = some a :=
    find?_id db.sessionIndex hnd a haTbl
  show List.take n (List.insertionSort rowBefore
      (match strTruthy (some a.id) with
        | none => db.sessionIndex.filter (matchesQuery q)
        | some aid =>
          match db.sessionIndex.find? (fun r => decide (r.id = aid)) with
          | none => db.sessionIndex.filter (matchesQuery q)
          | some after => (db.sessionIndex.filter (matchesQuery q)).filter (cursorPred after)))
    = l2.take n
  rw [strTruthy_some haid]
  simp only [hfind]
  rw [hsortEq]

theorem paginateAux_suffix (db : StoreDB) (q : SessionIndexQuery) (n : Nat)
    (hseed : db.seeded = true)
    (hnn : ∀ r ∈ db.sessionIndex, r.updated_at ≠ none)
    (hid : ∀ r ∈ db.sessionIndex, r.id ≠ "")
    (hnd : (db.sessionIndex.map (fun r => r.id)).Nodup)
    (hn : 1 ≤ n) :
    ∀ (fuel : Nat) (l1 l2 : List SessionIndexRecord) (a : SessionIndexRecord),
      listSessionIndexRows db { q with limit := none, afterID := none } = l1 ++ a :: l2 →
      l2.length + 1 ≤ fuel →
      paginateAux q n fuel db (some a.id) = l2 := by
  intro fuel
  induction fuel with
  | zero => intro l1 l2 a _ hfuel; omega
  | succ fuel ih =>
    intro l1 l2 a hL hfuel
    rw [paginateAux]
    rw [listSessionIndex_seeded hseed]
    simp only
    rw [listSessionIndexRows_cursor db q n hnn hid hnd l1 l2 a hL]
    cases hl2 : l2 with
    | nil => simp
    | cons b l2' =>
      have hpage_ne : l2.take n ≠ [] := by
        rw [hl2]
        cases n with
        | zero => omega
        | succ m => simp
      rw [← hl2]
      have hpos : 1 ≤ l2.length := by rw [hl2]; simp
      obtain ⟨F, pl, hFP⟩ : ∃ F pl, l2.take n = F ++ [pl] :=
        ⟨_, _, (List.dropLast_append_getLast hpage_ne).symm⟩
      have hlast : (l2.take n).getLast? = some pl := by
        rw [hFP]
        exact List.getLast?_concat F
      rw [hlast]
      show List.take n l2 ++ paginateAux q n fuel db (some pl.id) = l2
      have hl2split : l2 = F ++ pl :: l2.drop n := by
        conv_lhs => rw [← List.take_append_drop n l2]
        rw [hFP, List.append_assoc, List.singleton_append]
      have hLsplit : listSessionIndexRows db { q with limit := none, afterID := none }
          = (l1 ++ a :: F) ++ (pl :: l2.drop n) := by
        rw [hL]
        conv_lhs => rw [hl2split]
        simp [List.append_assoc]
      have hrec := ih (l1 ++ a :: F) (l2.drop n) pl hLsplit (by
        simp only [List.length_drop]
        omega)
      rw [hrec]
      conv_rhs => rw [← List.take_append_drop n l2]

theorem paginate_start (db : StoreDB) (q : SessionIndexQuery) (n : Nat)
    (hseed : db.seeded = true)
    (hnn : ∀ r ∈ db.sessionIndex, r.updated_at ≠ none)
    (hid : ∀ r ∈ db.sessionIndex, r.id ≠ "")
    (hnd : (db.sessionIndex.map (fun r => r.id)).Nodup)
    (hn : 1 ≤ n) (fuel : Nat)
    (hfuel : (listSessionIndexRows db { q with limit := none, afterID := none }).length + 1
      ≤ fuel + 1) :
    paginateAux q n (fuel + 1) db none
      = listSessionIndexRows db { q with limit := none, afterID := none } := by
  rw [paginateAux]
  rw [listSessionIndex_seeded hseed]
  simp only
  rw [listSessionIndexRows_no_cursor db q n]
  set L := listSessionIndexRows db { q with limit := none, afterID := none } with hLdef
  cases hl : L with
  | nil => simp
  | cons b L' =>
    have hpage_ne : L.take n ≠ [] := by
      rw [hl]
      cases n with
      | zero => omega
      | succ m => simp
    rw [← hl]
    have hpos : 1 ≤ L.length := by rw [hl]; simp
    obtain ⟨F, pl, hFP⟩ : ∃ F pl, L.take n = F ++ [pl] :=
      ⟨_, _, (List.dropLast_append_getLast hpage_ne).symm⟩
    have hlast : (L.take n).getLast? = some pl := by
      rw [hFP]
      exact List.getLast?_concat F
    rw [hlast]
    show List.take n L ++ paginateAux q n fuel db (some pl.id) = L
    have hLsplit : listSessionIndexRows db { q with limit := none, afterID := none }
        = F ++ (pl :: L.drop n) := by
      rw [← hLdef]
      conv_lhs => rw [← List.take_append_drop n L]
      rw [hFP, List.append_assoc, List.singleton_append]
    have hrec := paginateAux_suffix db q n hseed hnn hid hnd hn fuel
      F (L.drop n) pl hLsplit (by
        simp only [List.length_drop]
        omega)
    rw [hrec]
    conv_rhs => rw [← List.take_append_drop n L]

/-! ### Claim C2: listSessionIndex pagination -/

/-- C2 counterexample: with a stored index row whose updated_at is NULL, cursor
pagination skips it.  The row with id c sorts after the row with id b (SQLite
puts NULL last under ORDER BY updated_at DESC), but the cursor clause compares
COALESCE(updated_at, 0) against the cursor value 0 of row b and excludes it, so
paging with limit 1 returns only b while the single unlimited fetch returns b
then c. -/
theorem pagination_counterexample :
    (paginateAll
          { sessions := [],
            sessionIndex := [
              { id := "b", projectID := "p", parentID := none, title := "t", directory := "/d",
                version := none, created_at := none, updated_at := some 0, archived_at := none,
                additions := 0, deletions := 0, files_changed := 0, share_url := none,
                worktree_path := none, worktree_branch := none, data := none },
              { id := "c", projectID := "p", parentID := none, title := "t", directory := "/d",
                version := none, created_at := none, updated_at := none, archived_at := none,
                additions := 0, deletions := 0, files_changed := 0, share_url := none,
                worktree_path := none, worktree_branch := none, data := none }],
            seeded := true }
          { projectID := "p", limit := none, start := none, afterID := none, search := none,
            directory := none, includeArchived := none } 1).map (fun r => r.id) = ["b"]
    ∧ ((listSessionIndex
          { sessions := [],
            sessionIndex := [
              { id := "b", projectID := "p", parentID := none, title := "t", directory := "/d",
                version := none, created_at := none, updated_at := some 0, archived_at := none,
                additions := 0, deletions := 0, files_changed := 0, share_url := none,
                worktree_path := none, worktree_branch := none, data := none },
              { id := "c", projectID := "p", parentID := none, title := "t", directory := "/d",
                version := none, created_at := none, updated_at := none, archived_at := none,
                additions := 0, deletions := 0, files_changed := 0, share_url := none,
                worktree_path := none, worktree_branch := none, data := none }],
            seeded := true }
          { projectID := "p", limit := none, start := none, afterID := none, search := none,
            directory := none, includeArchived := none }).1.map (fun r => r.id)) = ["b", "c"] := by
  constructor
  · decide
  · decide

/-- C2 amended: over a seeded database whose stored session_index rows all
carry a non-null updated_at and a non-empty id (ids are primary-key distinct),
paging listSessionIndex with any positive limit, starting with no cursor and
passing afterID = the id of the previous page's last row until an empty page,
concatenates to exactly the unlimited fetch: same rows, same
updated_at DESC, id DESC order, nothing skipped or duplicated.  (Rows with a
NULL updated_at violate this, as the counterexample shows.) -/
theorem listSessionIndex_pagination_complete (db : StoreDB) (q : SessionIndexQuery) (n : Nat)
    (hseed : db.seeded = true)
    (hnn : ∀ r ∈ db.sessionIndex, r.updated_at ≠ none)
    (hid : ∀ r ∈ db.sessionIndex, r.id ≠ "")
    (hnd : (db.sessionIndex.map (fun r => r.id)).Nodup)
    (hn : 1 ≤ n) :
    paginateAll db q n = (listSessionIndex db { q with limit := none, afterID := none }).1 := by
  rw [listSessionIndex_seeded hseed]
  unfold paginateAll
  have hlen : (listSessionIndexRows db { q with limit := none, afterID := none }).length
      ≤ db.sessionIndex.length := by
    have h1 : (listSessionIndexRows db { q with limit := none, afterID := none }).length
        = (db.sessionIndex.filter (matchesQuery q)).length := by
      show (List.insertionSort rowBefore (db.sessionIndex.filter (matchesQuery q))).length = _
      exact List.length_insertionSort rowBefore _
    rw [h1]
    exact List.length_filter_le _ _
  exact paginate_start db q n hseed hnn hid hnd hn db.sessionIndex.length (by omega)

/-- Witness for listSessionIndex_pagination_complete on a concrete two-row
index. -/
theorem listSessionIndex_pagination_complete_witness :
    paginateAll
        { sessions := [],
          sessionIndex := [
            { id := "b", projectID := "p", parentID := none, title := "t", directory := "/d",
              version := none, created_at := none, updated_at := some 5, archived_at := none,
              additions := 0, deletions := 0, files_changed := 0, share_url := none,
              worktree_path := none, worktree_branch := none, data := none },
            { id := "c", projectID := "p", parentID := none, title := "t", directory := "/d",
              version := none, created_at := none, updated_at := some 3, archived_at := none,
              additions := 0, deletions := 0, files_changed := 0, share_url := none,
              worktree_path := none, worktree_branch := none, data := none }],
          seeded := true }
        { projectID := "p", limit := none, start := none, afterID := none, search := none,
          directory := none, includeArchived := none } 1
      = (listSessionIndex
          { sessions := [],
            sessionIndex := [
              { id := "b", projectID := "p", parentID := none, title := "t", directory := "/d",
                version := none, created_at := none, updated_at := some 5, archived_at := none,
                additions := 0, deletions := 0, files_changed := 0, share_url := none,
                worktree_path := none, worktree_branch := none, data := none },
              { id := "c", projectID := "p", parentID := none, title := "t", directory := "/d",
                version := none, created_at := none, updated_at := some 3, archived_at := none,
                additions := 0, deletions := 0, files_changed := 0, share_url := none,
                worktree_path := none, worktree_branch := none, data := none }],
            seeded := true }
          { projectID := "p", limit := none, start := none, afterID := none, search := none,
            directory := none, includeArchived := none }).1 := by
  have h := listSessionIndex_pagination_complete
    { sessions := [],
      sessionIndex := [
        { id := "b", projectID := "p", parentID := none, title := "t", directory := "/d",
          version := none, created_at := none, updated_at := some 5, archived_at := none,
          additions := 0, deletions := 0, files_changed := 0, share_url := none,
          worktree_path := none, worktree_branch := none, data := none },
        { id := "c", projectID := "p", parentID := none, title := "t", directory := "/d",
          version := none, created_at := none, updated_at := some 3, archived_at := none,
          additions := 0, deletions := 0, files_changed := 0, share_url := none,
          worktree_path := none, worktree_branch := none, data := none }],
      seeded := true }
    { projectID := "p", limit := none, start := none, afterID := none, search := none,
      directory := none, includeArchived := none }
    1 rfl (by decide) (by decide) (by decide) (by decide)
  exact h
